import Mathlib

/-!
Verification of the conn-server session-orchestration and protocol-translation
engine (`conn_server/server.py`, `conn_server/session_manager.py`,
`conn_server/preview_manager.py`) against its natural-language specification.

The Python code is shallowly embedded: pure fragments become Lean functions,
the per-turn `EventForwarder` becomes a state-passing function, the
`_run_claude` event loop becomes a fold over the subprocess's parsed event
stream, and the per-conversation locking discipline of `_handle_message`
becomes a labelled transition system.  Python exceptions raised while handling
an event are modelled by `Option`/`Except`.  `json.loads` / `json.dumps` are
modelled by an executable JSON value type with a serializer and a fueled
recursive-descent parser.
-/

/-! ## Association-list helpers (model of Python `dict` operations) -/

/-- Lookup in an association list (model of `dict.get(k)` /  `dict[k]`). -/
def alookup {α : Type} (k : String) : List (String × α) → Option α
  | [] => none
  | (k', v) :: t => if k' = k then some v else alookup k t

/-- Set a key (model of `dict[k] = v`: replaces in place, appends if fresh). -/
def aset {α : Type} (k : String) (v : α) : List (String × α) → List (String × α)
  | [] => [(k, v)]
  | (k', v') :: t => if k' = k then (k, v) :: t else (k', v') :: aset k v t

/-- Remove a key (model of `dict.pop(k, None)`). -/
def aerase {α : Type} (k : String) : List (String × α) → List (String × α)
  | [] => []
  | (k', v') :: t => if k' = k then t else (k', v') :: aerase k t

/-! ## JSON values

Model of the JSON data handled by `json.loads` / `json.dumps` in
`server.py`.  Numbers are modelled as non-negative integer literals (their
digit characters); fractional/exponent forms and the minus sign do not occur
in the tool inputs the code summarizes and are omitted.  The mutual shape
(instead of a nested `List Json`) gives a usable induction principle. -/

mutual

inductive Json where
  | null : Json
  | bool : Bool → Json
  | num : List Char → Json
  | str : String → Json
  | arr : JsonList → Json
  | obj : JsonFields → Json
  deriving Repr, DecidableEq

inductive JsonList where
  | nil : JsonList
  | cons : Json → JsonList → JsonList
  deriving Repr, DecidableEq

inductive JsonFields where
  | nil : JsonFields
  | cons : String → Json → JsonFields → JsonFields
  deriving Repr, DecidableEq

end

/-- Python truthiness of a JSON value (`if summary:` etc.). -/
def Json.truthy : Json → Bool
  | .null => false
  | .bool b => b
  | .num d => d.any (fun c => c ≠ '0')
  | .str s => s ≠ ""
  | .arr .nil => false
  | .arr _ => true
  | .obj .nil => false
  | .obj _ => true

/-- Field lookup, model of Python `dict.get(key)` returning `None` when
absent (dicts produced by `json.loads` have unique keys). -/
def JsonFields.get : JsonFields → String → Option Json
  | .nil, _ => none
  | .cons k v t, key => if k = key then some v else JsonFields.get t key

/-- Model of Python `dict.get(key, default)`. -/
def JsonFields.getD (fs : JsonFields) (key : String) (d : Json) : Json :=
  match fs.get key with
  | some v => v
  | none => d

/-- The values of an object in insertion order (Python `dict.values()`). -/
def JsonFields.values : JsonFields → List Json
  | .nil => []
  | .cons _ v t => v :: JsonFields.values t

def JsonList.toList : JsonList → List Json
  | .nil => []
  | .cons j t => j :: JsonList.toList t

/-! ## JSON serialization (model of `json.dumps` with default separators) -/

/-- Escape one character of a string literal (`json.dumps` escapes the quote
and the backslash; control/non-ASCII escapes are not needed for the inputs
modelled here). -/
def escapeChar (c : Char) : List Char :=
  if c = '"' ∨ c = '\\' then ['\\', c] else [c]

/-- The escaped body of a string literal. -/
def escBody (s : String) : List Char :=
  s.data.foldr (fun c acc => escapeChar c ++ acc) []

/-- A serialized string literal, including the surrounding quotes. -/
def serStr (s : String) : List Char :=
  '"' :: escBody s ++ ['"']

mutual

/-- Model of `json.dumps` (default separators `", "` and `": "`). -/
def Json.serialize : Json → List Char
  | .null => ['n', 'u', 'l', 'l']
  | .bool b => if b then ['t', 'r', 'u', 'e'] else ['f', 'a', 'l', 's', 'e']
  | .num d => d
  | .str s => serStr s
  | .arr .nil => ['[', ']']
  | .arr (.cons j t) => '[' :: Json.serialize j ++ JsonList.serializeRest t ++ [']']
  | .obj .nil => ['\x7b', '\x7d']
  | .obj (.cons k v t) =>
      '\x7b' :: serStr k ++ ':' :: ' ' :: Json.serialize v ++ JsonFields.serializeRest t ++ ['\x7d']

/-- Remaining array items, each preceded by `", "`. -/
def JsonList.serializeRest : JsonList → List Char
  | .nil => []
  | .cons j t => ',' :: ' ' :: Json.serialize j ++ JsonList.serializeRest t

/-- Remaining object members, each preceded by `", "`. -/
def JsonFields.serializeRest : JsonFields → List Char
  | .nil => []
  | .cons k v t => ',' :: ' ' :: serStr k ++ ':' :: ' ' :: Json.serialize v ++ JsonFields.serializeRest t

end

/-- The keys of an object, in order. -/
def JsonFields.keys : JsonFields → List String
  | .nil => []
  | .cons k _ t => k :: JsonFields.keys t

/-- Boolean distinctness of a list of strings. -/
def strNodup : List String → Bool
  | [] => true
  | s :: t => !(t.contains s) && strNodup t

mutual

/-- Well-formed JSON values: numeric literals are non-empty digit strings and
object keys are distinct at every level (as produced by Python's `json`
module from a `dict`). -/
def Json.WFb : Json → Bool
  | .null => true
  | .bool _ => true
  | .num d => !d.isEmpty && d.all Char.isDigit
  | .str _ => true
  | .arr l => JsonList.WFb l
  | .obj f => JsonFields.WFb f && strNodup (JsonFields.keys f)

def JsonList.WFb : JsonList → Bool
  | .nil => true
  | .cons j t => Json.WFb j && JsonList.WFb t

def JsonFields.WFb : JsonFields → Bool
  | .nil => true
  | .cons _ v t => Json.WFb v && JsonFields.WFb t

end

/-! ## JSON parsing (model of `json.loads`)

A fueled recursive-descent parser over character lists.  `parseVal` consumes
one JSON value and returns it with the unconsumed remainder; `jsonLoads`
additionally requires that only whitespace remains, as `json.loads` does. -/

/-- Skip blanks (the serializer only ever emits the plain space). -/
def skipSp : List Char → List Char :=
  List.dropWhile (fun c => c = ' ')

/-- Parse the body of a string literal after the opening quote, returning the
unescaped content and the remainder after the closing quote. -/
def parseStrBody : List Char → Option (List Char × List Char)
  | [] => none
  | c :: r =>
      if c = '"' then some ([], r)
      else if c = '\\' then
        match r with
        | [] => none
        | c2 :: r2 =>
            if c2 = '"' ∨ c2 = '\\' then
              match parseStrBody r2 with
              | some (s, r') => some (c2 :: s, r')
              | none => none
            else none
      else
        match parseStrBody r with
        | some (s, r') => some (c :: s, r')
        | none => none

mutual

/-- Parse one JSON value (fueled; fuel bounds the recursion depth). -/
def parseVal : Nat → List Char → Option (Json × List Char)
  | 0, _ => none
  | fuel + 1, l =>
    match skipSp l with
    | 'n' :: 'u' :: 'l' :: 'l' :: r => some (.null, r)
    | 't' :: 'r' :: 'u' :: 'e' :: r => some (.bool true, r)
    | 'f' :: 'a' :: 'l' :: 's' :: 'e' :: r => some (.bool false, r)
    | '"' :: r =>
        match parseStrBody r with
        | some (cs, r') => some (.str (String.mk cs), r')
        | none => none
    | '[' :: r =>
        match skipSp r with
        | ']' :: r' => some (.arr .nil, r')
        | _ =>
            match parseItems fuel r with
            | some (xs, r') => some (.arr xs, r')
            | none => none
    | '\x7b' :: r =>
        match skipSp r with
        | '\x7d' :: r' => some (.obj .nil, r')
        | _ =>
            match parseFields fuel r with
            | some (fs, r') => some (.obj fs, r')
            | none => none
    | c :: r =>
        if c.isDigit then
          some (.num ((c :: r).takeWhile Char.isDigit), (c :: r).dropWhile Char.isDigit)
        else none
    | [] => none

/-- Parse the non-empty item list of an array, consuming the closing `]`. -/
def parseItems : Nat → List Char → Option (JsonList × List Char)
  | 0, _ => none
  | fuel + 1, l =>
    match parseVal fuel l with
    | some (v, r) =>
        match skipSp r with
        | ',' :: r1 =>
            match parseItems fuel r1 with
            | some (xs, r') => some (.cons v xs, r')
            | none => none
        | ']' :: r1 => some (.cons v .nil, r1)
        | _ => none
    | none => none

/-- Parse the non-empty member list of an object, consuming the closing brace. -/
def parseFields : Nat → List Char → Option (JsonFields × List Char)
  | 0, _ => none
  | fuel + 1, l =>
    match skipSp l with
    | '"' :: r =>
        match parseStrBody r with
        | some (k, r1) =>
            match skipSp r1 with
            | ':' :: r2 =>
                match parseVal fuel r2 with
                | some (v, r3) =>
                    match skipSp r3 with
                    | ',' :: r4 =>
                        match parseFields fuel r4 with
                        | some (fs, r') => some (.cons (String.mk k) v fs, r')
                        | none => none
                    | '\x7d' :: r4 => some (.cons (String.mk k) v .nil, r4)
                    | _ => none
                | none => none
            | _ => none
        | none => none
    | _ => none

end

/-- Whether a JSON value is a numeric literal. -/
def Json.isNum : Json → Bool
  | .num _ => true
  | _ => false

/-- The serialized items of a (non-empty) array, without the brackets. -/
def JsonList.serializeItems : JsonList → List Char
  | .nil => []
  | .cons j t => Json.serialize j ++ JsonList.serializeRest t

/-- The serialized members of a (non-empty) object, without the braces. -/
def JsonFields.serializeMembers : JsonFields → List Char
  | .nil => []
  | .cons k v t => serStr k ++ ':' :: ' ' :: Json.serialize v ++ JsonFields.serializeRest t

/-- A remainder is safe to follow a serialized value: it does not begin with
a digit (which would be munched into a preceding numeric literal). -/
def goodRest : List Char → Bool
  | [] => true
  | c :: _ => !c.isDigit

/-- Model of `json.loads`: parse one value and require that at most blanks
remain; `none` models a raised `json.JSONDecodeError`. -/
def jsonLoads (s : List Char) : Option Json :=
  match parseVal (s.length + 1) s with
  | some (v, r) => if skipSp r = [] then some v else none
  | none => none

/-! ## Tool-input summarization (model of `_summarize_tool_input`)

Python exceptions (e.g. slicing a non-string with `[:80]`, iterating a
non-iterable) are modelled by `none`; `some v` is the returned value, which
Python allows to be any JSON value, not only a string. -/

/-- Python `or` on two values, by truthiness. -/
def pyOr (a b : Json) : Json := if a.truthy then a else b

/-- Model of `input_data.get(key)` (missing keys give Python `None`). -/
def pyGet (fs : JsonFields) (key : String) : Json :=
  match fs.get key with
  | some v => v
  | none => Json.null

/-- Model of `input_data.get(key, default)`. -/
def pyGetD (fs : JsonFields) (key : String) (d : Json) : Json := fs.getD key d

/-- Model of `x[:80] + ("..." if len(x) > 80 else "")`; crashes on non-strings. -/
def truncate80 : Json → Option Json
  | .str s => some (.str (s.take 80 ++ (if s.length > 80 then "..." else "")))
  | _ => none

/-- Model of `x[:80]` (plain slice, no ellipsis); crashes on non-strings. -/
def slice80 : Json → Option Json
  | .str s => some (.str (s.take 80))
  | _ => none

/-- One `TodoWrite` item: `t.get("status") == "in_progress"` selects it and
`t.get("content", "")` is collected; non-dict items crash (`AttributeError`). -/
def todoItem : Json → Option (Option Json)
  | .obj fs =>
      some (match fs.get "status" with
            | some (.str s) =>
                if s = "in_progress" then some (pyGetD fs "content" (.str "")) else none
            | _ => none)
  | _ => none

/-- The in-progress contents of a todo list, in order; crashes if an item is
not a dict. -/
def todosInProgress : JsonList → Option (List Json)
  | .nil => some []
  | .cons t rest =>
      match todoItem t with
      | none => none
      | some sel =>
          match todosInProgress rest with
          | none => none
          | some acc => some (match sel with | some v => v :: acc | none => acc)

def JsonList.length : JsonList → Nat
  | .nil => 0
  | .cons _ t => 1 + JsonList.length t

/-- The `TodoWrite` summary over the `todos` value.  Iterating a non-list
crashes unless the value is an empty string/dict (whose iteration is empty,
after which `len` still works for them). -/
def summarizeTodos : Json → Option Json
  | .arr ts =>
      match todosInProgress ts with
      | none => none
      | some (v :: _) => some v
      | some [] => some (.str (toString (JsonList.length ts) ++ " items"))
  | .str s => if s = "" then some (.str "0 items") else none
  | .obj .nil => some (.str "0 items")
  | _ => none

/-- First non-empty string among the dict's values, sliced with ellipsis
(the generic fallback of `_summarize_tool_input`). -/
def firstStrValue : List Json → Option Json
  | [] => none
  | .str s :: rest => if s ≠ "" then some (.str (s.take 80 ++ (if s.length > 80 then "..." else ""))) else firstStrValue rest
  | _ :: rest => firstStrValue rest

/-- Model of `_summarize_tool_input(tool_name, input_data)`.  `none` models a
raised exception (`TypeError`/`AttributeError` on badly-typed input values);
`some v` is the returned value.  A non-dict `input_data` crashes on its first
`.get` (every branch of the Python function starts with one). -/
def summarizeToolInput (toolName : String) (input : Json) : Option Json :=
  if toolName = "" then some (.str "") else
  match input with
  | .obj fs =>
      if toolName = "Read" ∨ toolName = "Glob" ∨ toolName = "Grep" then
        some (pyOr (pyGet fs "file_path") (pyOr (pyGet fs "pattern") (pyGetD fs "path" (.str ""))))
      else if toolName = "Edit" then some (pyGetD fs "file_path" (.str ""))
      else if toolName = "Write" then some (pyGetD fs "file_path" (.str ""))
      else if toolName = "Bash" then truncate80 (pyGetD fs "command" (.str ""))
      else if toolName = "Task" then
        let d := pyGet fs "description"
        if d.truthy then some d else slice80 (pyGetD fs "prompt" (.str ""))
      else if toolName = "TodoWrite" then summarizeTodos (pyGetD fs "todos" (.arr .nil))
      else if toolName = "WebSearch" then some (pyGetD fs "query" (.str ""))
      else if toolName = "WebFetch" then some (pyGetD fs "url" (.str ""))
      else if toolName = "NotebookEdit" then some (pyGetD fs "notebook_path" (.str ""))
      else
        match firstStrValue fs.values with
        | some v => some v
        | none => some (.str "")
  | _ => none

/-- Model of `_extract_screenshot_path`: outer `none` is a crash
(`.get` on a non-dict parse result), `some none` is Python `None`. -/
def extractScreenshotPath (buf : List Char) : Option (Option String) :=
  if buf = [] then some none
  else
    match jsonLoads buf with
    | none => some none
    | some (.obj fs) =>
        some (match fs.get "filename" with
              | some (.str s) => if s = "" then none else some s
              | _ => none)
    | some _ => none

/-! ## The stream-to-client protocol translator (model of `EventForwarder`) -/

/-- A content block of the upstream stream-json protocol. -/
inductive ContentBlock where
  | toolUse (name : String) (input : Json)
  | text (t : String)
  | other
  deriving Repr, DecidableEq

/-- A `content_block_delta` payload. -/
inductive Delta where
  | textDelta (t : String)
  | inputJsonDelta (fragment : List Char)
  | other
  deriving Repr, DecidableEq

/-- One parsed line of the subprocess's stream-json output (the fields the
server reads).  `result` carries `is_error`, the optional `session_id`, and
the `result` text (empty string models a missing/falsy field). -/
inductive StreamEvent where
  | contentBlockStart (block : ContentBlock)
  | contentBlockDelta (d : Delta)
  | contentBlockStop
  | assistant (content : List ContentBlock)
  | result (isError : Bool) (sessionId : Option String) (resultText : String)
  | other
  deriving Repr, DecidableEq

/-- A server→client WebSocket message (the kinds the modelled code emits). -/
inductive ClientEvent where
  | textDelta (text : String) (conversationId : String)
  | toolStart (tool : String) (inputSummary : Json) (conversationId : String)
  | toolDone (conversationId : String)
  | image (path : String) (conversationId : String)
  | errorEvt (detail : String)
  | busyEvt (detail : String) (conversationId : String)
  | cancelledEvt (conversationId : String)
  | messageComplete (conversationId : String) (sessionId : Option String)
  deriving Repr, DecidableEq

/-- Python truthiness of an optional string (`None` and `""` are falsy). -/
def optStrTruthy : Option String → Bool
  | none => false
  | some s => s ≠ ""

/-- The per-turn translator state (`EventForwarder.__init__`). -/
structure FwdState where
  sawStreamingEvents : Bool
  activeToolName : Option String
  toolInputJson : List Char
  toolStartSent : Bool
  imagePaths : List String
  cwd : Option String
  deriving Repr

def FwdState.init (cwd : Option String) : FwdState :=
  ⟨false, none, [], false, [], cwd⟩

/-- Tools recognized as producing a screenshot file. -/
def screenshotTools : List String := ["mcp__playwright__browser_take_screenshot"]

/-- Resolve a possibly-relative screenshot path against the turn's working
directory (model of the `Path` arithmetic; `resolve()` is the identity here). -/
def resolvePath (cwd : Option String) (p : String) : String :=
  if p.startsWith "/" then p
  else match cwd with
       | some c => if c ≠ "" then c ++ "/" ++ p else p
       | none => p

/-- Process the content blocks of an `assistant` aggregate event (the
fallback path of `_forward_impl`); `none` models a raised exception. -/
def assistantBlocks (cid : String) (st : FwdState) :
    List ContentBlock → Option (List ClientEvent × FwdState)
  | [] => some ([], st)
  | .text t :: rest =>
      match assistantBlocks cid st rest with
      | some (evs, st') => some (.textDelta t cid :: evs, st')
      | none => none
  | .toolUse name input :: rest =>
      match summarizeToolInput name input with
      | none => none
      | some summary =>
          let startEv := ClientEvent.toolStart name summary cid
          let (imgEvs, st1) :=
            if screenshotTools.contains name then
              match input with
              | .obj fs =>
                  match fs.get "filename" with
                  | some (.str s) =>
                      if s ≠ "" then
                        let ap := resolvePath st.cwd s
                        ([ClientEvent.image ap cid], { st with imagePaths := st.imagePaths ++ [ap] })
                      else ([], st)
                  | _ => ([], st)
              | _ => ([], st)
            else ([], st)
          match assistantBlocks cid st1 rest with
          | some (evs, st') =>
              some (startEv :: imgEvs ++ ClientEvent.toolDone cid :: evs, st')
          | none => none
  | .other :: rest => assistantBlocks cid st rest

/-- Model of `EventForwarder._forward_impl`: one upstream event to the list
of client events sent, plus the new translator state.  `none` models an
exception propagating out of the handler. -/
def fwdStep (cid : String) (st : FwdState) : StreamEvent → Option (List ClientEvent × FwdState)
  | .contentBlockStart block =>
      let st := { st with sawStreamingEvents := true }
      match block with
      | .toolUse name input =>
          let st := { st with activeToolName := some name, toolInputJson := [], toolStartSent := false }
          match summarizeToolInput name input with
          | none => none
          | some summary =>
              if summary.truthy then
                some ([.toolStart name summary cid], { st with toolStartSent := true })
              else some ([], st)
      | _ => some ([], st)
  | .contentBlockStop =>
      match st.activeToolName with
      | none => some ([], st)
      | some name =>
          let startPart : Option (List ClientEvent) :=
            if st.toolStartSent then some []
            else
              match
                (if st.toolInputJson = [] then some (Json.str "")
                 else match jsonLoads st.toolInputJson with
                      | some d => summarizeToolInput name d
                      | none => some (Json.str (String.mk (st.toolInputJson.take 80)))) with
              | none => none
              | some summary => some [.toolStart name summary cid]
          match startPart with
          | none => none
          | some startEvs =>
              let imgPart : Option (List ClientEvent × FwdState) :=
                if screenshotTools.contains name then
                  match extractScreenshotPath st.toolInputJson with
                  | none => none
                  | some none => some ([], st)
                  | some (some p) =>
                      let ap := resolvePath st.cwd p
                      some ([.image ap cid], { st with imagePaths := st.imagePaths ++ [ap] })
                else some ([], st)
              match imgPart with
              | none => none
              | some (imgEvs, st1) =>
                  some (startEvs ++ imgEvs ++ [.toolDone cid],
                        { st1 with activeToolName := none, toolInputJson := [], toolStartSent := false })
  | .contentBlockDelta d =>
      let st := { st with sawStreamingEvents := true }
      match d with
      | .textDelta t => some ([.textDelta t cid], st)
      | .inputJsonDelta frag =>
          match st.activeToolName with
          | some name =>
              if name ≠ "" then
                let st := { st with toolInputJson := st.toolInputJson ++ frag }
                if !st.toolStartSent && decide (st.toolInputJson.length > 5) then
                  match jsonLoads st.toolInputJson with
                  | some input =>
                      match summarizeToolInput name input with
                      | none => none
                      | some summary =>
                          if summary.truthy then
                            some ([.toolStart name summary cid], { st with toolStartSent := true })
                          else some ([], st)
                  | none => some ([], st)
                else some ([], st)
              else some ([], st)
          | none => some ([], st)
      | .other => some ([], st)
  | .assistant blocks =>
      if st.sawStreamingEvents then some ([], st)
      else assistantBlocks cid st blocks
  | .result _ _ _ => some ([], st)
  | .other => some ([], st)

/-! ## The per-turn event loop and stale-token retry (model of `_run_claude`)

The subprocess's parsed stream (`async for raw_line in process.stdout`, with
each line decoded by `json.loads` and malformed lines skipped) is modelled as
a list of `StreamEvent`s.  The loop's accumulation (one transcript string,
one text source per turn), result inspection, session-id capture, and the
recursive retry-without-resume are translated directly. -/

/-- The mutable locals of the streaming loop in `_run_claude`, plus the list
of client events sent so far (instrumentation of `_send_to_client`). -/
structure LoopState where
  accumulatedText : String
  inToolUse : Bool
  resultIsError : Bool
  sawStreamingDeltas : Bool
  newSessionId : Option String
  fwd : FwdState
  sent : List ClientEvent
  deriving Repr

def initLoopState (sid : Option String) (cwd : Option String) : LoopState :=
  ⟨"", false, false, false, sid, FwdState.init cwd, []⟩

/-- Concatenated text of the `text` blocks of an aggregate message. -/
def concatTextBlocks : List ContentBlock → String
  | [] => ""
  | .text t :: rest => t ++ concatTextBlocks rest
  | _ :: rest => concatTextBlocks rest

/-- One iteration of the streaming loop in `_run_claude`: forward the event
through the translator, then update the transcript accumulator and the
result/session bookkeeping.  `none` models an exception. -/
def loopStep (cid : String) (st : LoopState) (e : StreamEvent) : Option LoopState :=
  match fwdStep cid st.fwd e with
  | none => none
  | some (evs, fwd') =>
      let st := { st with fwd := fwd', sent := st.sent ++ evs }
      match e with
      | .contentBlockDelta (.textDelta t) =>
          let sep := if st.inToolUse && decide (st.accumulatedText ≠ "") then "\n\n" else ""
          some { st with sawStreamingDeltas := true, inToolUse := false,
                         accumulatedText := st.accumulatedText ++ sep ++ t }
      | .contentBlockStart (.toolUse _ _) => some { st with inToolUse := true }
      | .assistant blocks =>
          if st.sawStreamingDeltas then some st
          else some { st with accumulatedText := st.accumulatedText ++ concatTextBlocks blocks }
      | .result isErr sid rtext =>
          let st := { st with
            resultIsError := isErr,
            newSessionId := if isErr then st.newSessionId
                            else (match sid with | some s => some s | none => st.newSessionId) }
          if st.accumulatedText = "" && decide (rtext ≠ "") then
            some { st with accumulatedText := rtext, sent := st.sent ++ [.textDelta rtext cid] }
          else some st
      | _ => some st

/-- Run the streaming loop over the whole event list. -/
def runLoop (cid : String) (st : LoopState) : List StreamEvent → Option LoopState
  | [] => some st
  | e :: rest =>
      match loopStep cid st e with
      | some st' => runLoop cid st' rest
      | none => none

/-- Outcome of the whole client-visible turn. -/
structure TurnResult where
  sent : List ClientEvent
  store : Option String
  attempts : Nat
  crashed : Bool
  deriving Repr

/-- The completion path of `_run_claude` (no retry): persist the session id
when truthy and emit `message_complete`. -/
def finishTurn (cid : String) (store : Option String) (st : LoopState) :
    Option String × List ClientEvent :=
  (if optStrTruthy st.newSessionId && decide (cid ≠ "") then st.newSessionId else store,
   st.sent ++ [.messageComplete cid st.newSessionId])

/-- Model of `_run_claude`: run one subprocess attempt over `attempts 0`;
on the stale-resume condition clear the stored session id, notify the client,
and recurse once with no session id (the retried attempt consumes
`attempts 1`, and so on).  The `fuel` argument makes the Python recursion
well-founded in Lean; `none` means the fuel was insufficient, i.e. the code
would have recursed deeper than `fuel` allows.  `isFirstTurn` mirrors the
unused Python parameter. -/
def runClaudeRec : Nat → String → Option String → Option String → Bool → Option String →
    (Nat → List StreamEvent) → Option TurnResult
  | 0, _, _, _, _, _, _ => none
  | fuel + 1, cid, store, sid, _isFirstTurn, cwd, attempts =>
      match runLoop cid (initLoopState sid cwd) (attempts 0) with
      | none => some ⟨[.errorEvt "claude subprocess error"], store, 1, true⟩
      | some st =>
          if st.resultIsError && optStrTruthy sid && decide (st.accumulatedText = "") then
            match runClaudeRec fuel cid none none true cwd (fun n => attempts (n + 1)) with
            | none => none
            | some r =>
                some ⟨st.sent ++ .errorEvt "Session expired, retrying..." :: r.sent,
                      r.store, r.attempts + 1, r.crashed⟩
          else
            let (store', sent') := finishTurn cid store st
            some ⟨sent', store', 1, false⟩

/-! ## Conversation records and creation (model of `session_manager.py`) -/

/-- A persisted conversation record (dataclass `Conversation`). -/
structure Conversation where
  id : String
  name : String
  claudeSessionId : Option String
  createdAt : String
  lastMessageAt : String
  workingDir : Option String
  allowedTools : Option (List String)
  mcpServers : Option (List String)
  gitWorktreePath : Option String
  originalWorkingDir : Option String
  model : Option String
  agent : Option String
  deriving Repr, DecidableEq

/-- The conversation-id pattern `^[a-zA-Z0-9][a-zA-Z0-9_-]{0,127}$`. -/
def validConversationId (s : String) : Bool :=
  match s.data with
  | [] => false
  | c :: rest =>
      (c.isAlpha || c.isDigit) && decide (rest.length ≤ 127)
        && rest.all (fun d => d.isAlpha || d.isDigit || d = '_' || d = '-')

/-- The in-memory `SessionManager` state: conversations keyed by id. -/
structure SMState where
  conversations : List (String × Conversation)
  deriving Repr

/-- Result of `create_conversation`: the returned record, the new state, and
whether `_save` rewrote the persisted sessions file. -/
structure CreateResult where
  conv : Conversation
  state : SMState
  saved : Bool
  deriving Repr

/-- Model of `SessionManager.create_conversation`: validate the id (a
`ValueError` is `Except.error`), return an existing record unchanged without
saving, otherwise insert a fresh record and save.  `now` stands for
`_iso_now()`. -/
def SMState.createConversation (st : SMState) (conversationId name : String)
    (workingDir : Option String) (allowedTools : Option (List String))
    (mcpServers : Option (List String)) (model : Option String)
    (agent : Option String) (now : String) : Except String CreateResult :=
  if !validConversationId conversationId then
    .error "Invalid conversation ID"
  else
    match alookup conversationId st.conversations with
    | some existing => .ok ⟨existing, st, false⟩
    | none =>
        let conv : Conversation :=
          ⟨conversationId, name, none, now, now, workingDir, allowedTools,
           mcpServers, none, none, model, agent⟩
        .ok ⟨conv, ⟨aset conversationId conv st.conversations⟩, true⟩

/-! ## Preview servers (model of `preview_manager.py`) -/

/-- A preview record (`PreviewInfo` dataclass). -/
structure PreviewInfo where
  port : Nat
  pid : Nat
  workingDir : String
  command : String
  conversationId : Option String
  deriving Repr, DecidableEq

/-- A live subprocess handle: `returncode` is `none` while running. -/
structure ProcHandle where
  pid : Nat
  returncode : Option Int
  deriving Repr, DecidableEq

/-- The `PreviewManager` state: previews and process handles per directory. -/
structure PMState where
  previews : List (String × PreviewInfo)
  processes : List (String × ProcHandle)
  deriving Repr

/-- The environment a `start` call observes: the (implementation-defined)
string hash, which ports `bind` accepts, the detected dev-server command
(`none` models the `RuntimeError` for unrecognized projects), the pid of a
fresh spawn, whether `_wait_for_port` saw the port answer, and the
`returncode` observed at the not-ready check. -/
structure PreviewEnv where
  hash : String → Nat
  bindable : Nat → Bool
  detectCmd : String → Nat → Option (List String)
  spawnPid : Nat
  ready : Bool
  diedCode : Option Int

def previewPortMin : Nat := 8100
def previewPortRange : Nat := 100

/-- The probing order of `_find_free_port` for a given directory: the
hash-derived preferred port first, then forward with wraparound. -/
def probeSeq (h : String → Nat) (wd : String) : List Nat :=
  (List.range previewPortRange).map
    (fun off => previewPortMin + (h wd % previewPortRange + off) % previewPortRange)

/-- Model of `_find_free_port`: skip ports already recorded in use, try to
bind the rest in probing order; `none` models the `RuntimeError`. -/
def findFreePort (h : String → Nat) (bindable : Nat → Bool) (used : List Nat)
    (wd : Option String) : Option Nat :=
  match wd with
  | some w => (probeSeq h w).find? (fun p => !used.contains p && bindable p)
  | none =>
      ((List.range previewPortRange).map (fun off => previewPortMin + off)).find?
        (fun p => !used.contains p && bindable p)

/-- The ports currently recorded in use (`{p.port for p in self._previews.values()}`). -/
def PMState.usedPorts (st : PMState) : List Nat :=
  st.previews.map (fun p => p.2.port)

/-- Model of `get_preview`: return the record for a directory, lazily
dropping it (and its process handle) when the process has exited. -/
def PMState.getPreview (st : PMState) (wd : String) : Option PreviewInfo × PMState :=
  match alookup wd st.previews with
  | none => (none, st)
  | some info =>
      match alookup wd st.processes with
      | some p =>
          if p.returncode.isSome then
            (none, ⟨aerase wd st.previews, aerase wd st.processes⟩)
          else (some info, st)
      | none => (some info, st)

/-- Result of a successful `start`. -/
structure StartResult where
  info : PreviewInfo
  state : PMState
  spawned : Bool
  deriving Repr

/-- The non-idempotent tail of `PreviewManager.start` (after the existing
record check): allocate a port, detect (or take) the command, spawn, record,
and fail only if the process already exited while the port never became
ready. -/
def PMState.startFresh (st1 : PMState) (env : PreviewEnv) (wd : String)
    (cid : Option String) (cmdArg : Option (List String)) : Except String StartResult :=
  match findFreePort env.hash env.bindable st1.usedPorts (some wd) with
  | none => .error "No free ports available in preview range"
  | some port =>
      match (match cmdArg with | some c => some c | none => env.detectCmd wd port) with
      | none => .error "Could not detect project type"
      | some cmd =>
          let info : PreviewInfo := ⟨port, env.spawnPid, wd, String.intercalate " " cmd, cid⟩
          let st2 : PMState :=
            ⟨aset wd info st1.previews, aset wd ⟨env.spawnPid, none⟩ st1.processes⟩
          if env.ready then .ok ⟨info, st2, true⟩
          else
            match env.diedCode with
            | some _ => .error "Preview server exited immediately"
            | none => .ok ⟨info, st2, true⟩

/-- Model of `PreviewManager.start`: idempotent per directory; otherwise
spawn and record a fresh dev server (`startFresh`). -/
def PMState.start (st : PMState) (env : PreviewEnv) (wd : String)
    (cid : Option String) (cmdArg : Option (List String)) : Except String StartResult :=
  match st.getPreview wd with
  | (some existing, st1) => .ok ⟨existing, st1, false⟩
  | (none, st1) => st1.startFresh env wd cid cmdArg

/-- Model of `PreviewManager.stop`: drop both records; report whether a
process handle existed. -/
def PMState.stop (st : PMState) (wd : String) : Bool × PMState :=
  let st1 : PMState := ⟨aerase wd st.previews, aerase wd st.processes⟩
  match alookup wd st.processes with
  | none => (false, st1)
  | some _ => (true, st1)

/-- An external event: the dev-server process for a directory exits. -/
def PMState.markDied (st : PMState) (wd : String) (code : Int) : PMState :=
  match alookup wd st.processes with
  | some p => ⟨st.previews, aset wd ⟨p.pid, some code⟩ st.processes⟩
  | none => st

/-! ## Cancellation of active subprocesses (model of `_cancel_conversation_process`
and `_handle_cancel`) -/

/-- Model of `_cancel_conversation_process`: if a live process is registered
for the id, terminate it (its `returncode` becomes set; `-15` is SIGTERM) and
report `true`; otherwise report `false`.  The registry entry is not removed. -/
def cancelConversationProcess (reg : List (String × ProcHandle)) (cid : String) :
    Bool × List (String × ProcHandle) :=
  match alookup cid reg with
  | some p =>
      if p.returncode = none then (true, aset cid ⟨p.pid, some (-15)⟩ reg)
      else (false, reg)
  | none => (false, reg)

/-- The cancel-all loop of `_handle_cancel` without a conversation id:
iterate over the registered ids, cancelling each and emitting one `cancelled`
event per process actually terminated. -/
def cancelAllGo (reg : List (String × ProcHandle)) :
    List String → List ClientEvent × List (String × ProcHandle)
  | [] => ([], reg)
  | cid :: rest =>
      match cancelConversationProcess reg cid with
      | (true, reg') =>
          let (evs, regF) := cancelAllGo reg' rest
          (.cancelledEvt cid :: evs, regF)
      | (false, reg') => cancelAllGo reg' rest

/-- Model of the `else` branch of `_handle_cancel` (no `conversation_id`):
cancel every registered conversation, sending `cancelled` per terminated
process, or a single error event when none was terminated. -/
def handleCancelAll (reg : List (String × ProcHandle)) :
    List ClientEvent × List (String × ProcHandle) :=
  let (evs, reg') := cancelAllGo reg (reg.map Prod.fst)
  (if evs.isEmpty then [.errorEvt "No active process to cancel"] else evs, reg')

/-! ## The per-conversation concurrency controller (model of the locking
discipline of `_handle_message`)

For one fixed conversation id, each in-flight `_handle_message` invocation is
a handler whose phase tracks its position between the `await` points of the
Python code; the conversation's `asyncio.Lock` is a boolean.  Steps are
atomic segments between `await`s (asyncio is cooperatively scheduled). -/

/-- The phase of one `_handle_message` handler for the conversation. -/
inductive HandlerPhase where
  | start       -- about to check `conv_lock.locked()`
  | cancelWait  -- saw the lock held: cancellation of the active process was requested, awaiting the lock with a 5s timeout
  | acquiring   -- past the busy check, awaiting `async with conv_lock`
  | running     -- holds the lock; `_run_claude` spawned the agent subprocess
  | doneBusy    -- timeout: reported `busy` and dropped the input
  | done        -- turn finished normally: the stream ended (subprocess exited), lock released
  | doneOrphan  -- turn aborted: an exception in the streaming loop was swallowed by the `except` of `_run_claude`, whose `finally` pops the `active_processes` registration without terminating the subprocess; the lock is released on return while the subprocess is still alive
  deriving Repr, DecidableEq

/-- The controller state for one conversation id: the lock bit and the
phases of the handlers so far (a handler's index never changes). -/
structure ConcState where
  lockHeld : Bool
  handlers : List HandlerPhase
  deriving Repr, DecidableEq

/-- Step labels (what the transition does). -/
inductive ConcLabel where
  | arrive
  | checkFree (i : Nat)
  | checkHeldCancel (i : Nat)
  | waitFreed (i : Nat)
  | waitTimeoutBusy (i : Nat)
  | acquireSpawn (i : Nat)
  | finishRelease (i : Nat)
  | crashRelease (i : Nat)
  deriving Repr, DecidableEq

/-- The labelled transition relation of the concurrency controller. -/
inductive ConcStep : ConcState → ConcLabel → ConcState → Prop where
  | arrive (s : ConcState) :
      ConcStep s .arrive ⟨s.lockHeld, s.handlers ++ [.start]⟩
  | checkFree (s : ConcState) (i : Nat)
      (h : s.handlers.get? i = some .start) (hl : s.lockHeld = false) :
      ConcStep s (.checkFree i) ⟨s.lockHeld, s.handlers.set i .acquiring⟩
  | checkHeldCancel (s : ConcState) (i : Nat)
      (h : s.handlers.get? i = some .start) (hl : s.lockHeld = true) :
      ConcStep s (.checkHeldCancel i) ⟨s.lockHeld, s.handlers.set i .cancelWait⟩
  | waitFreed (s : ConcState) (i : Nat)
      (h : s.handlers.get? i = some .cancelWait) (hl : s.lockHeld = false) :
      ConcStep s (.waitFreed i) ⟨s.lockHeld, s.handlers.set i .acquiring⟩
  | waitTimeoutBusy (s : ConcState) (i : Nat)
      (h : s.handlers.get? i = some .cancelWait) :
      ConcStep s (.waitTimeoutBusy i) ⟨s.lockHeld, s.handlers.set i .doneBusy⟩
  | acquireSpawn (s : ConcState) (i : Nat)
      (h : s.handlers.get? i = some .acquiring) (hl : s.lockHeld = false) :
      ConcStep s (.acquireSpawn i) ⟨true, s.handlers.set i .running⟩
  | finishRelease (s : ConcState) (i : Nat)
      (h : s.handlers.get? i = some .running) :
      ConcStep s (.finishRelease i) ⟨false, s.handlers.set i .done⟩
  | crashRelease (s : ConcState) (i : Nat)
      (h : s.handlers.get? i = some .running) :
      ConcStep s (.crashRelease i) ⟨false, s.handlers.set i .doneOrphan⟩

/-- The initial controller state: lock free, no handlers yet. -/
def concInit : ConcState := ⟨false, []⟩

/-- Reachability along controller steps. -/
def ConcReach : ConcState → ConcState → Prop :=
  Relation.ReflTransGen (fun s s' => ∃ l, ConcStep s l s')

/-- The lock-discipline invariant: at most one handler is in the locked
`running` phase, and none when the lock is free.  (This speaks about lock
tenure only: a handler that crashed out of `running` has released the lock
but its subprocess is still alive, see `phaseLive`.) -/
def ConcInv (s : ConcState) : Prop :=
  (∀ i j, s.handlers.get? i = some .running → s.handlers.get? j = some .running → i = j)
  ∧ (s.lockHeld = false → ∀ i, s.handlers.get? i ≠ some .running)

/-- Whether a handler's phase implies a live agent subprocess: a `running`
turn has spawned one, and a crashed turn's subprocess was never terminated
(`active_processes.pop` in the `finally` only drops the registration). -/
def phaseLive : HandlerPhase → Bool
  | .running => true
  | .doneOrphan => true
  | _ => false

/-- The number of live agent subprocesses for this conversation id. -/
def liveSubprocs (s : ConcState) : Nat :=
  (s.handlers.filter phaseLive).length

/-- Number of entries for a key in an association list. -/
def countKey {α : Type} (k : String) (l : List (String × α)) : Nat :=
  (l.filter (fun p => p.1 = k)).length

/-- Run the translator over a list of upstream events, concatenating all
client events sent; `none` as soon as one handler raises. -/
def fwdRun (cid : String) (st : FwdState) : List StreamEvent → Option (List ClientEvent × FwdState)
  | [] => some ([], st)
  | e :: rest =>
      match fwdStep cid st e with
      | none => none
      | some (evs, st') =>
          match fwdRun cid st' rest with
          | none => none
          | some (evs', st'') => some (evs ++ evs', st'')

/-- The events that set the translator's sticky `saw_streaming` flag. -/
def isStreamingBlockEvent : StreamEvent → Bool
  | .contentBlockStart _ => true
  | .contentBlockDelta _ => true
  | _ => false

/-- Recognize a `tool_start` client event. -/
def isToolStart : ClientEvent → Bool
  | .toolStart _ _ _ => true
  | _ => false

/-- The `tool_start` events among a list of client events. -/
def toolStartsOf (evs : List ClientEvent) : List ClientEvent :=
  evs.filter isToolStart

/-- Concatenation of the partial-input-json chunks. -/
def joinChunks : List (List Char) → List Char
  | [] => []
  | c :: rest => c ++ joinChunks rest

/-- The translator state while a deferred tool's input is being accumulated:
streaming seen, the tool active, the buffer so far, and whether the
`tool_start` has been emitted; image paths and cwd come from `base`. -/
def toolWaitSt (base : FwdState) (name : String) (buf : List Char) (sent : Bool) : FwdState :=
  ⟨true, some name, buf, sent, base.imagePaths, base.cwd⟩

/-! ## Helper lemmas on association lists -/

theorem alookup_aset_self {α : Type} (k : String) (v : α) (l : List (String × α)) :
    alookup k (aset k v l) = some v := by
  induction l with
  | nil => simp [aset, alookup]
  | cons h t ih =>
      by_cases hk : h.1 = k
      · simp [aset, hk, alookup]
      · simp [aset, hk, alookup, ih]

theorem alookup_eq_none_of_not_mem {α : Type} {k : String} {l : List (String × α)}
    (h : k ∉ l.map Prod.fst) : alookup k l = none := by
  induction l with
  | nil => simp [alookup]
  | cons hd t ih =>
      simp only [List.map_cons, List.mem_cons] at h
      push_neg at h
      have hne : ¬ hd.1 = k := fun hh => h.1 hh.symm
      simp [alookup, hne, ih h.2]

theorem not_mem_of_alookup_eq_none {α : Type} {k : String} {l : List (String × α)}
    (h : alookup k l = none) : k ∉ l.map Prod.fst := by
  induction l with
  | nil => simp
  | cons hd t ih =>
      simp only [alookup] at h
      by_cases hk : hd.1 = k
      · simp [hk] at h
      · simp only [hk, if_false] at h
        have hne : ¬ k = hd.1 := fun hh => hk hh.symm
        simp [ih h, hne]

theorem aset_of_not_mem {α : Type} {k : String} (v : α) {l : List (String × α)}
    (h : k ∉ l.map Prod.fst) : aset k v l = l ++ [(k, v)] := by
  induction l with
  | nil => simp [aset]
  | cons hd t ih =>
      simp only [List.map_cons, List.mem_cons] at h
      push_neg at h
      have hne : ¬ hd.1 = k := fun hh => h.1 hh.symm
      simp [aset, hne, ih h.2]

theorem aerase_append_self {α : Type} {k : String} (v : α) {l : List (String × α)}
    (h : k ∉ l.map Prod.fst) : aerase k (l ++ [(k, v)]) = l := by
  induction l with
  | nil => simp [aerase]
  | cons hd t ih =>
      simp only [List.map_cons, List.mem_cons] at h
      push_neg at h
      have hne : ¬ hd.1 = k := fun hh => h.1 hh.symm
      simp [aerase, hne, ih h.2]

theorem aerase_sublist {α : Type} (k : String) (l : List (String × α)) :
    (aerase k l).Sublist l := by
  induction l with
  | nil => simp [aerase]
  | cons hd t ih =>
      by_cases hk : hd.1 = k
      · simp only [aerase, hk, if_true]
        exact List.sublist_cons_self hd t
      · simp only [aerase, hk, if_false]
        exact ih.cons₂ hd

/-! ## C7: idempotent conversation creation -/

/-- C7: For a conversation id that already exists (such ids are valid, having
passed validation when first created), `create_conversation` returns the
existing record with every field unchanged, leaves the state untouched, and
does not rewrite the persisted store; with a fresh valid id it inserts a new
record (and saves). -/
theorem createConversation_idempotent (st : SMState) (cid name : String)
    (wd : Option String) (tools mcp : Option (List String))
    (model agent : Option String) (now : String)
    (hvalid : validConversationId cid = true) :
    (∀ conv, alookup cid st.conversations = some conv →
       st.createConversation cid name wd tools mcp model agent now = .ok ⟨conv, st, false⟩)
    ∧ (alookup cid st.conversations = none →
       ∃ conv, st.createConversation cid name wd tools mcp model agent now
           = .ok ⟨conv, ⟨aset cid conv st.conversations⟩, true⟩
         ∧ conv.id = cid ∧ conv.name = name ∧ conv.claudeSessionId = none
         ∧ alookup cid (aset cid conv st.conversations) = some conv) := by
  constructor
  · intro conv hconv
    simp [SMState.createConversation, hvalid, hconv]
  · intro hnone
    refine ⟨⟨cid, name, none, now, now, wd, tools, mcp, none, none, model, agent⟩, ?_, rfl, rfl, rfl, ?_⟩
    · simp [SMState.createConversation, hvalid, hnone]
    · exact alookup_aset_self _ _ _

/-- Witness for C7 at a concrete state: a one-conversation store, repeated
creation returns the record unchanged without saving, and a fresh id is
inserted. -/
theorem createConversation_idempotent_witness :
    (SMState.createConversation ⟨[("c1", ⟨"c1", "First", some "tok", "t0", "t1",
        none, none, none, none, none, none, none⟩)]⟩ "c1" "Renamed attempt"
        none none none none none "t2"
      = .ok ⟨⟨"c1", "First", some "tok", "t0", "t1", none, none, none, none, none, none, none⟩,
             ⟨[("c1", ⟨"c1", "First", some "tok", "t0", "t1",
               none, none, none, none, none, none, none⟩)]⟩, false⟩) := by
  have h := (createConversation_idempotent
    ⟨[("c1", ⟨"c1", "First", some "tok", "t0", "t1", none, none, none, none, none, none, none⟩)]⟩
    "c1" "Renamed attempt" none none none none none "t2" (by decide)).1
    ⟨"c1", "First", some "tok", "t0", "t1", none, none, none, none, none, none, none⟩
    (by simp [alookup])
  exact h

/-! ## C10: cancel without a conversation id cancels everything -/

theorem alookup_append_of_not_mem {α : Type} {k : String} {pre : List (String × α)}
    (t : List (String × α)) (h : k ∉ pre.map Prod.fst) :
    alookup k (pre ++ t) = alookup k t := by
  induction pre with
  | nil => simp
  | cons hd p ih =>
      simp only [List.map_cons, List.mem_cons] at h
      push_neg at h
      have hne : ¬ hd.1 = k := fun hh => h.1 hh.symm
      simp [alookup, hne, ih h.2]

theorem aset_append_of_not_mem {α : Type} {k : String} (v : α) {pre : List (String × α)}
    (t : List (String × α)) (h : k ∉ pre.map Prod.fst) :
    aset k v (pre ++ t) = pre ++ aset k v t := by
  induction pre with
  | nil => simp
  | cons hd p ih =>
      simp only [List.map_cons, List.mem_cons] at h
      push_neg at h
      have hne : ¬ hd.1 = k := fun hh => h.1 hh.symm
      simp [aset, hne, ih h.2]

theorem cancelAllGo_cons (reg : List (String × ProcHandle)) (cid : String)
    (ks : List String) :
    cancelAllGo reg (cid :: ks) =
      match cancelConversationProcess reg cid with
      | (true, reg') =>
          let r := cancelAllGo reg' ks
          (ClientEvent.cancelledEvt cid :: r.1, r.2)
      | (false, reg') => cancelAllGo reg' ks := rfl

theorem cancelAllGo_split (t : List (String × ProcHandle)) :
    ∀ pre : List (String × ProcHandle),
    (∀ k, k ∈ t.map Prod.fst → k ∉ pre.map Prod.fst) →
    (t.map Prod.fst).Nodup →
    cancelAllGo (pre ++ t) (t.map Prod.fst) =
      ((t.filter (fun e => e.2.returncode.isNone)).map (fun e => ClientEvent.cancelledEvt e.1),
       pre ++ t.map (fun e =>
         (e.1, if e.2.returncode = none then (⟨e.2.pid, some (-15)⟩ : ProcHandle) else e.2))) := by
  induction t with
  | nil => intro pre _ _; simp [cancelAllGo]
  | cons hd t ih =>
      intro pre hdisj hnodup
      have hk_pre : hd.1 ∉ pre.map Prod.fst := hdisj hd.1 (by simp)
      have hlook : alookup hd.1 (pre ++ hd :: t) = some hd.2 := by
        rw [alookup_append_of_not_mem _ hk_pre]
        simp [alookup]
      simp only [List.map_cons, List.nodup_cons] at hnodup
      by_cases hlive : hd.2.returncode = none
      · have hstep : cancelConversationProcess (pre ++ hd :: t) hd.1 =
            (true, pre ++ (hd.1, (⟨hd.2.pid, some (-15)⟩ : ProcHandle)) :: t) := by
          simp only [cancelConversationProcess, hlook, hlive, if_true]
          rw [aset_append_of_not_mem _ _ hk_pre]
          simp [aset]
        have harr : pre ++ (hd.1, (⟨hd.2.pid, some (-15)⟩ : ProcHandle)) :: t
            = (pre ++ [(hd.1, (⟨hd.2.pid, some (-15)⟩ : ProcHandle))]) ++ t := by simp
        have hdisj' : ∀ k, k ∈ t.map Prod.fst →
            k ∉ (pre ++ [(hd.1, (⟨hd.2.pid, some (-15)⟩ : ProcHandle))]).map Prod.fst := by
          intro k hkt
          simp only [List.map_append, List.mem_append, List.map_cons, List.map_nil,
            List.mem_singleton]
          push_neg
          refine ⟨hdisj k (by simp [hkt]), ?_⟩
          intro hke
          exact hnodup.1 (hke ▸ hkt)
        have hih := ih (pre ++ [(hd.1, (⟨hd.2.pid, some (-15)⟩ : ProcHandle))]) hdisj' hnodup.2
        simp only [List.map_cons]
        rw [cancelAllGo_cons, hstep]
        dsimp only
        rw [harr, hih]
        simp [List.filter_cons, hlive, Option.isNone]
      · have hstep : cancelConversationProcess (pre ++ hd :: t) hd.1 = (false, pre ++ hd :: t) := by
          simp [cancelConversationProcess, hlook, hlive]
        have harr : pre ++ hd :: t = (pre ++ [hd]) ++ t := by simp
        have hdisj' : ∀ k, k ∈ t.map Prod.fst → k ∉ (pre ++ [hd]).map Prod.fst := by
          intro k hkt
          simp only [List.map_append, List.mem_append, List.map_cons, List.map_nil,
            List.mem_singleton]
          push_neg
          refine ⟨hdisj k (by simp [hkt]), ?_⟩
          intro hke
          exact hnodup.1 (hke ▸ hkt)
        have hih := ih (pre ++ [hd]) hdisj' hnodup.2
        have hnn : hd.2.returncode.isNone = false := by
          cases hre : hd.2.returncode with
          | none => exact absurd hre hlive
          | some c => rfl
        simp only [List.map_cons]
        rw [cancelAllGo_cons, hstep]
        dsimp only
        rw [harr, hih]
        simp [List.filter_cons, hnn, hlive]

/-- C10: When a `cancel` message carries no conversation id, the handler
terminates the active subprocess of every registered conversation, emits one
`cancelled` event per conversation whose process was actually live (in
registry order), emits a single error event when none was, and afterwards no
registered process is live.  (This cancel-all fallback is implemented in
`_handle_cancel` although the spec only lists `cancel{conversation_id?}`.) -/
theorem handleCancelAll_spec (reg : List (String × ProcHandle))
    (hnodup : (reg.map Prod.fst).Nodup) :
    handleCancelAll reg =
      (if reg.filter (fun e => e.2.returncode.isNone) = []
       then [ClientEvent.errorEvt "No active process to cancel"]
       else ((reg.filter (fun e => e.2.returncode.isNone)).map Prod.fst).map
              ClientEvent.cancelledEvt,
       reg.map (fun e =>
         (e.1, if e.2.returncode = none then (⟨e.2.pid, some (-15)⟩ : ProcHandle) else e.2)))
    ∧ ∀ e ∈ (handleCancelAll reg).2, e.2.returncode ≠ none := by
  have hsplit := cancelAllGo_split reg [] (by simp) hnodup
  simp only [List.nil_append] at hsplit
  constructor
  · simp only [handleCancelAll, hsplit]
    by_cases hfe : reg.filter (fun e => e.2.returncode.isNone) = []
    · simp [hfe]
    · simp [hfe, List.map_map, Function.comp, List.isEmpty_iff]
  · intro e he
    simp only [handleCancelAll, hsplit, List.nil_append] at he
    rcases List.mem_map.mp he with ⟨e0, _, rfl⟩
    by_cases h0 : e0.2.returncode = none
    · simp [h0]
    · simp only [h0, if_false]
      exact h0

/-- Witness for C10 on a concrete registry: one live process (`c1`), one
already-exited process (`c2`): exactly one `cancelled` event is sent, for
`c1`, and both end up non-live. -/
theorem handleCancelAll_spec_witness :
    handleCancelAll [("c1", ⟨41, none⟩), ("c2", ⟨42, some 0⟩)] =
      ([ClientEvent.cancelledEvt "c1"],
       [("c1", ⟨41, some (-15)⟩), ("c2", ⟨42, some 0⟩)]) := by
  have h := (handleCancelAll_spec [("c1", ⟨41, none⟩), ("c2", ⟨42, some 0⟩)] (by decide)).1
  rw [h]
  rfl

/-! ## C8/C9: preview start idempotence and port allocation -/

theorem countKey_eq_zero_of_not_mem {α : Type} {k : String} {l : List (String × α)}
    (h : k ∉ l.map Prod.fst) : countKey k l = 0 := by
  induction l with
  | nil => rfl
  | cons hd t ih =>
      simp only [List.map_cons, List.mem_cons] at h
      push_neg at h
      have hne : ¬ hd.1 = k := fun hh => h.1 hh.symm
      have ht := ih h.2
      simp only [countKey] at ht ⊢
      rw [List.filter_cons]
      simp only [hne, decide_False, if_false]
      exact ht

theorem countKey_eq_one_of_alookup_some {α : Type} {k : String} {l : List (String × α)}
    {v : α} (hnodup : (l.map Prod.fst).Nodup) (h : alookup k l = some v) :
    countKey k l = 1 := by
  induction l with
  | nil => simp [alookup] at h
  | cons hd t ih =>
      simp only [List.map_cons, List.nodup_cons] at hnodup
      simp only [alookup] at h
      by_cases hk : hd.1 = k
      · have : k ∉ t.map Prod.fst := hk ▸ hnodup.1
        simp [countKey, List.filter_cons, hk]
        have h0 := countKey_eq_zero_of_not_mem this
        simpa [countKey] using h0
      · simp only [hk, if_false] at h
        simpa [countKey, List.filter_cons, hk] using ih hnodup.2 h

theorem keys_aset {α : Type} (k : String) (v : α) (l : List (String × α)) :
    (aset k v l).map Prod.fst =
      if k ∈ l.map Prod.fst then l.map Prod.fst else l.map Prod.fst ++ [k] := by
  induction l with
  | nil => simp [aset]
  | cons hd t ih =>
      by_cases hk : hd.1 = k
      · simp [aset, hk]
      · have hne : ¬ k = hd.1 := fun hh => hk hh.symm
        by_cases hm : k ∈ t.map Prod.fst
        · simp [aset, hk, ih, hm, hne]
        · simp [aset, hk, ih, hm, hne]

theorem keys_aerase {α : Type} (k : String) (l : List (String × α)) :
    (aerase k l).map Prod.fst = (l.map Prod.fst).erase k := by
  induction l with
  | nil => simp [aerase]
  | cons hd t ih =>
      by_cases hk : hd.1 = k
      · simp [aerase, hk, List.erase_cons, hk]
      · have : (hd.1 == k) = false := by simpa using hk
        simp [aerase, hk, List.erase_cons, this, ih]

theorem nodup_keys_aset {α : Type} (k : String) (v : α) {l : List (String × α)}
    (h : (l.map Prod.fst).Nodup) : ((aset k v l).map Prod.fst).Nodup := by
  rw [keys_aset]
  by_cases hm : k ∈ l.map Prod.fst
  · simpa [hm] using h
  · simp only [hm, if_false]
    rw [List.nodup_append]
    refine ⟨h, List.nodup_singleton k, ?_⟩
    intro a ha hb
    simp only [List.mem_singleton] at hb
    exact hm (hb ▸ ha)

theorem nodup_keys_aerase {α : Type} (k : String) {l : List (String × α)}
    (h : (l.map Prod.fst).Nodup) : ((aerase k l).map Prod.fst).Nodup :=
  ((aerase_sublist k l).map Prod.fst).nodup h

/-- A successful `startFresh` returns the freshly recorded info and state:
the port chosen by `_find_free_port`, the detected (or given) command, a
process handle that is live at spawn time, and `spawned = true`. -/
theorem startFresh_shape (st1 : PMState) (env : PreviewEnv) (wd : String)
    (cid : Option String) (cmdArg : Option (List String)) (r : StartResult)
    (hok : st1.startFresh env wd cid cmdArg = .ok r) :
    ∃ port cmd,
      findFreePort env.hash env.bindable st1.usedPorts (some wd) = some port
      ∧ (match cmdArg with | some c => some c | none => env.detectCmd wd port) = some cmd
      ∧ (env.ready = true ∨ env.diedCode = none)
      ∧ r = ⟨⟨port, env.spawnPid, wd, String.intercalate " " cmd, cid⟩,
             ⟨aset wd ⟨port, env.spawnPid, wd, String.intercalate " " cmd, cid⟩ st1.previews,
              aset wd ⟨env.spawnPid, none⟩ st1.processes⟩, true⟩ := by
  unfold PMState.startFresh at hok
  split at hok
  · cases hok
  case _ port hfp =>
    split at hok
    · cases hok
    case _ cmd hcmd =>
      dsimp only at hok
      split at hok
      case _ hready =>
        cases hok
        exact ⟨port, cmd, hfp, hcmd, Or.inl (by simpa using hready), rfl⟩
      case _ hready =>
        split at hok
        · cases hok
        case _ hdied =>
          cases hok
          exact ⟨port, cmd, hfp, hcmd, Or.inr hdied, rfl⟩

/-- Converse evaluation: with the same environment observations,
`startFresh` succeeds with exactly this result. -/
theorem startFresh_eval (st1 : PMState) (env : PreviewEnv) (wd : String)
    (cid : Option String) (cmdArg : Option (List String)) (port : Nat)
    (cmd : List String)
    (hfp : findFreePort env.hash env.bindable st1.usedPorts (some wd) = some port)
    (hcmd : (match cmdArg with | some c => some c | none => env.detectCmd wd port) = some cmd)
    (hready : env.ready = true ∨ env.diedCode = none) :
    st1.startFresh env wd cid cmdArg =
      .ok ⟨⟨port, env.spawnPid, wd, String.intercalate " " cmd, cid⟩,
           ⟨aset wd ⟨port, env.spawnPid, wd, String.intercalate " " cmd, cid⟩ st1.previews,
            aset wd ⟨env.spawnPid, none⟩ st1.processes⟩, true⟩ := by
  unfold PMState.startFresh
  rw [hfp]
  dsimp only
  rw [hcmd]
  dsimp only
  by_cases hr : env.ready
  · rw [if_pos hr]
  · rw [if_neg hr]
    rcases hready with h | h
    · exact absurd h hr
    · rw [h]

/-- Everything a successful `start` guarantees about the resulting state:
key uniqueness and preview/process key agreement are preserved, the
directory's preview record is the returned one, and its process handle (if
present) is live. -/
theorem start_ok_facts (st : PMState) (env : PreviewEnv) (wd : String)
    (cid : Option String) (cmdArg : Option (List String)) (r : StartResult)
    (hok : st.start env wd cid cmdArg = .ok r)
    (hnp : (st.previews.map Prod.fst).Nodup)
    (hsync : st.previews.map Prod.fst = st.processes.map Prod.fst) :
    (r.state.previews.map Prod.fst).Nodup
    ∧ r.state.previews.map Prod.fst = r.state.processes.map Prod.fst
    ∧ alookup wd r.state.previews = some r.info
    ∧ (∀ h, alookup wd r.state.processes = some h → h.returncode = none) := by
  have freshCase :
      ∀ st1 : PMState, (st1.previews.map Prod.fst).Nodup →
      st1.previews.map Prod.fst = st1.processes.map Prod.fst →
      st1.startFresh env wd cid cmdArg = .ok r →
      (r.state.previews.map Prod.fst).Nodup
      ∧ r.state.previews.map Prod.fst = r.state.processes.map Prod.fst
      ∧ alookup wd r.state.previews = some r.info
      ∧ (∀ h, alookup wd r.state.processes = some h → h.returncode = none) := by
    intro st1 hnp1 hsync1 hok1
    rcases startFresh_shape st1 env wd cid cmdArg r hok1 with ⟨port, cmd, _, _, _, rfl⟩
    refine ⟨nodup_keys_aset _ _ hnp1, ?_, alookup_aset_self _ _ _, ?_⟩
    · simp only [keys_aset, hsync1]
    · intro h hh
      rw [alookup_aset_self] at hh
      cases hh
      rfl
  unfold PMState.start at hok
  rcases hprev : alookup wd st.previews with _ | info
  · simp only [PMState.getPreview, hprev] at hok
    exact freshCase st hnp hsync hok
  · rcases hproc : alookup wd st.processes with _ | p
    · simp only [PMState.getPreview, hprev, hproc] at hok
      cases hok
      exact ⟨hnp, hsync, hprev, fun h hh => by rw [hproc] at hh; cases hh⟩
    · by_cases hdead : p.returncode.isSome
      · simp only [PMState.getPreview, hprev, hproc, hdead, if_true] at hok
        refine freshCase ⟨aerase wd st.previews, aerase wd st.processes⟩
          (nodup_keys_aerase _ hnp) ?_ hok
        simp only [keys_aerase, hsync]
      · simp only [PMState.getPreview, hprev, hproc, hdead, if_false] at hok
        cases hok
        refine ⟨hnp, hsync, hprev, fun h hh => ?_⟩
        rw [hproc] at hh
        cases hh
        simpa using hdead

theorem mem_keys_of_alookup_some {α : Type} {k : String} {l : List (String × α)}
    {v : α} (h : alookup k l = some v) : k ∈ l.map Prod.fst := by
  by_contra hn
  rw [alookup_eq_none_of_not_mem hn] at h
  cases h

theorem alookup_some_of_mem {α : Type} {k : String} {l : List (String × α)}
    (h : k ∈ l.map Prod.fst) : ∃ v, alookup k l = some v := by
  rcases hl : alookup k l with _ | v
  · exact absurd (not_mem_of_alookup_eq_none hl) (by simpa using h)
  · exact ⟨v, rfl⟩

/-- C8: calling preview `start` twice for the same project directory without
an intervening stop is idempotent: given a successful first `start` (against
a state with unique directory keys, previews and process handles keyed
alike), a second `start` — under any environment — returns the very same
record (same port, same pid) without spawning, leaves the state unchanged,
and exactly one preview record and one process handle exist for the
directory. -/
theorem preview_start_idempotent (st : PMState) (env env' : PreviewEnv) (wd : String)
    (cid cid' : Option String) (cmdArg cmdArg' : Option (List String)) (r : StartResult)
    (hok : st.start env wd cid cmdArg = .ok r)
    (hnp : (st.previews.map Prod.fst).Nodup)
    (hsync : st.previews.map Prod.fst = st.processes.map Prod.fst) :
    r.state.start env' wd cid' cmdArg' = .ok ⟨r.info, r.state, false⟩
    ∧ countKey wd r.state.previews = 1
    ∧ countKey wd r.state.processes = 1 := by
  obtain ⟨hnp', hsync', hlook, hlive⟩ := start_ok_facts st env wd cid cmdArg r hok hnp hsync
  have hgp : r.state.getPreview wd = (some r.info, r.state) := by
    unfold PMState.getPreview
    rw [hlook]
    rcases hpp : alookup wd r.state.processes with _ | h
    · rfl
    · have := hlive h hpp
      simp [this]
  refine ⟨?_, ?_, ?_⟩
  · unfold PMState.start
    rw [hgp]
  · exact countKey_eq_one_of_alookup_some hnp' hlook
  · have hmem : wd ∈ r.state.processes.map Prod.fst :=
      hsync' ▸ mem_keys_of_alookup_some hlook
    obtain ⟨h, hh⟩ := alookup_some_of_mem hmem
    exact countKey_eq_one_of_alookup_some (hsync' ▸ hnp') hh

/-- Witness for C8: a first `start` on an empty manager for `/proj` records
port 8100 with pid 7; the immediate second `start` returns the same record,
spawns nothing, and leaves single records. -/
theorem preview_start_idempotent_witness :
    (PMState.start
        ⟨[("/proj", ⟨8100, 7, "/proj", "serve", some "c1"⟩)],
         [("/proj", ⟨7, none⟩)]⟩
        ⟨fun _ => 0, fun _ => true, fun _ _ => some ["serve"], 7, true, none⟩
        "/proj" (some "c2") none
      = .ok ⟨⟨8100, 7, "/proj", "serve", some "c1"⟩,
             ⟨[("/proj", ⟨8100, 7, "/proj", "serve", some "c1"⟩)],
              [("/proj", ⟨7, none⟩)]⟩, false⟩)
    ∧ countKey "/proj" [("/proj", (⟨8100, 7, "/proj", "serve", some "c1"⟩ : PreviewInfo))] = 1 := by
  have h := preview_start_idempotent
    ⟨[], []⟩
    ⟨fun _ => 0, fun _ => true, fun _ _ => some ["serve"], 7, true, none⟩
    ⟨fun _ => 0, fun _ => true, fun _ _ => some ["serve"], 7, true, none⟩
    "/proj" (some "c1") (some "c2") none none
    ⟨⟨8100, 7, "/proj", "serve", some "c1"⟩,
     ⟨[("/proj", ⟨8100, 7, "/proj", "serve", some "c1"⟩)], [("/proj", ⟨7, none⟩)]⟩, true⟩
    rfl (by simp) rfl
  exact ⟨h.1, h.2.1⟩

theorem find?_split {α : Type} {p : α → Bool} {l : List α} {a : α}
    (h : l.find? p = some a) :
    p a = true ∧ ∃ l1 l2, l = l1 ++ a :: l2 ∧ ∀ x ∈ l1, p x = false := by
  induction l with
  | nil => cases h
  | cons hd t ih =>
      rcases hp : p hd with _ | _
      · rw [List.find?_cons, hp] at h
        obtain ⟨hpa, l1, l2, rfl, hl1⟩ := ih h
        refine ⟨hpa, hd :: l1, l2, rfl, ?_⟩
        intro x hx
        rcases List.mem_cons.mp hx with rfl | hx
        · exact hp
        · exact hl1 x hx
      · rw [List.find?_cons, hp] at h
        cases h
        exact ⟨hp, [], t, rfl, by simp⟩

theorem find?_congr {α : Type} {p q : α → Bool} (l : List α)
    (h : ∀ x ∈ l, p x = q x) : l.find? p = l.find? q := by
  induction l with
  | nil => rfl
  | cons hd t ih =>
      rw [List.find?_cons, List.find?_cons, h hd (by simp)]
      rcases q hd with _ | _
      · exact ih (fun x hx => h x (by simp [hx]))
      · rfl

theorem probeSeq_mem_bounds {h : String → Nat} {wd : String} {p : Nat}
    (hp : p ∈ probeSeq h wd) :
    previewPortMin ≤ p ∧ p < previewPortMin + previewPortRange := by
  simp only [probeSeq, List.mem_map, List.mem_range] at hp
  obtain ⟨off, _, rfl⟩ := hp
  simp only [previewPortMin, previewPortRange]
  omega

theorem probeSeq_head (h : String → Nat) (wd : String) :
    (probeSeq h wd).get? 0 = some (previewPortMin + h wd % previewPortRange) := by
  have h0 : (probeSeq h wd).get? 0
      = some (previewPortMin + (h wd % previewPortRange + 0) % previewPortRange) := rfl
  rw [h0]
  congr 1
  simp only [previewPortRange]
  omega

/-- C9: preview port selection.
1. A successfully chosen port lies in 8100–8199, is neither recorded in use
   nor unbindable, the probing sequence starts at the hash-derived preferred
   port, and every port probed before the chosen one was in use or
   unbindable (linear probing with wraparound).
2. The chosen port depends only on the directory, the hash, bindability and
   the membership of the in-use set (determinism).
3. A fresh start / stop cycle for a directory returns the allocation to the
   original state, so the next start for the same directory and environment
   chooses the same port.
4. `start` and `stop` preserve distinctness of the recorded ports, so two
   simultaneously recorded previews never hold the same port. -/
theorem preview_port_selection :
    (∀ (h : String → Nat) (bindable : Nat → Bool) (used : List Nat) (wd : String) (p : Nat),
       findFreePort h bindable used (some wd) = some p →
         previewPortMin ≤ p ∧ p < previewPortMin + previewPortRange
         ∧ p ∉ used ∧ bindable p = true
         ∧ (probeSeq h wd).get? 0 = some (previewPortMin + h wd % previewPortRange)
         ∧ ∃ l1 l2, probeSeq h wd = l1 ++ p :: l2
             ∧ ∀ q ∈ l1, q ∈ used ∨ bindable q = false)
    ∧ (∀ (h : String → Nat) (bindable : Nat → Bool) (used1 used2 : List Nat) (wd : String),
       (∀ q, q ∈ used1 ↔ q ∈ used2) →
       findFreePort h bindable used1 (some wd) = findFreePort h bindable used2 (some wd))
    ∧ (∀ (st : PMState) (env : PreviewEnv) (wd : String) (cid cid2 : Option String)
         (r : StartResult),
       alookup wd st.previews = none →
       st.previews.map Prod.fst = st.processes.map Prod.fst →
       st.start env wd cid none = .ok r →
       ∃ r2, ((r.state.stop wd).2).start env wd cid2 none = .ok r2
         ∧ r2.info.port = r.info.port)
    ∧ (∀ (st : PMState) (env : PreviewEnv) (wd : String) (cid : Option String)
         (cmdArg : Option (List String)) (r : StartResult),
       st.start env wd cid cmdArg = .ok r →
       (st.previews.map Prod.fst).Nodup → st.usedPorts.Nodup →
       r.state.usedPorts.Nodup)
    ∧ (∀ (st : PMState) (wd : String),
       st.usedPorts.Nodup → ((st.stop wd).2).usedPorts.Nodup) := by
  have hcontains : ∀ (used : List Nat) (q : Nat), used.contains q = decide (q ∈ used) :=
    fun used q => List.elem_eq_mem q used
  have char : ∀ (h : String → Nat) (bindable : Nat → Bool) (used : List Nat)
      (wd : String) (p : Nat),
      findFreePort h bindable used (some wd) = some p →
        previewPortMin ≤ p ∧ p < previewPortMin + previewPortRange
        ∧ p ∉ used ∧ bindable p = true
        ∧ (probeSeq h wd).get? 0 = some (previewPortMin + h wd % previewPortRange)
        ∧ ∃ l1 l2, probeSeq h wd = l1 ++ p :: l2
            ∧ ∀ q ∈ l1, q ∈ used ∨ bindable q = false := by
    intro h bindable used wd p hfp
    unfold findFreePort at hfp
    obtain ⟨hpa, l1, l2, hsplit, hl1⟩ := find?_split hfp
    have hmem : p ∈ probeSeq h wd := by rw [hsplit]; simp
    obtain ⟨hlo, hhi⟩ := probeSeq_mem_bounds hmem
    rw [hcontains, Bool.and_eq_true] at hpa
    refine ⟨hlo, hhi, ?_, hpa.2, probeSeq_head h wd, l1, l2, hsplit, ?_⟩
    · intro hm
      have := hpa.1
      simp [hm] at this
    · intro q hq
      have := hl1 q hq
      rw [hcontains] at this
      rcases hqm : decide (q ∈ used) with _ | _
      · right
        simp only [hqm, Bool.not_false, Bool.true_and] at this
        exact this
      · left
        simpa using hqm
  refine ⟨char, ?_, ?_, ?_, ?_⟩
  · intro h bindable used1 used2 wd hiff
    unfold findFreePort
    refine find?_congr _ ?_
    intro x _
    rw [hcontains, hcontains]
    have : decide (x ∈ used1) = decide (x ∈ used2) := decide_eq_decide.mpr (hiff x)
    rw [this]
  · intro st env wd cid cid2 r hno hsync hok
    have hnomem : wd ∉ st.previews.map Prod.fst := not_mem_of_alookup_eq_none hno
    have hnomem2 : wd ∉ st.processes.map Prod.fst := hsync ▸ hnomem
    unfold PMState.start at hok
    simp only [PMState.getPreview, hno] at hok
    obtain ⟨port, cmd, hfp, hcmd, hready, rfl⟩ := startFresh_shape st env wd cid none r hok
    have hback : (PMState.stop ⟨aset wd ⟨port, env.spawnPid, wd, String.intercalate " " cmd, cid⟩
        st.previews, aset wd ⟨env.spawnPid, none⟩ st.processes⟩ wd).2 = st := by
      unfold PMState.stop
      have e1 : aerase wd (aset wd ⟨port, env.spawnPid, wd, String.intercalate " " cmd, cid⟩
          st.previews) = st.previews := by
        rw [aset_of_not_mem _ hnomem, aerase_append_self _ hnomem]
      have e2 : aerase wd (aset wd ⟨env.spawnPid, none⟩ st.processes) = st.processes := by
        rw [aset_of_not_mem _ hnomem2, aerase_append_self _ hnomem2]
      rcases alookup wd (aset wd (⟨env.spawnPid, none⟩ : ProcHandle) st.processes) with _ | _
      · simp only [e1, e2]
      · simp only [e1, e2]
    rw [hback]
    refine ⟨⟨⟨port, env.spawnPid, wd, String.intercalate " " cmd, cid2⟩,
      ⟨aset wd ⟨port, env.spawnPid, wd, String.intercalate " " cmd, cid2⟩ st.previews,
       aset wd ⟨env.spawnPid, none⟩ st.processes⟩, true⟩, ?_, rfl⟩
    unfold PMState.start
    simp only [PMState.getPreview, hno]
    exact startFresh_eval st env wd cid2 none port cmd hfp hcmd hready
  · intro st env wd cid cmdArg r hok hkeys hports
    have freshCase : ∀ st1 : PMState,
        wd ∉ st1.previews.map Prod.fst → st1.usedPorts.Nodup →
        st1.startFresh env wd cid cmdArg = .ok r → r.state.usedPorts.Nodup := by
      intro st1 hw hports1 hok1
      obtain ⟨port, cmd, hfp, _, _, rfl⟩ := startFresh_shape st1 env wd cid cmdArg r hok1
      have hpa := (find?_split hfp).1
      rw [hcontains, Bool.and_eq_true] at hpa
      have hnp : port ∉ st1.usedPorts := by
        intro hm
        have h1 := hpa.1
        rw [Bool.not_eq_true', decide_eq_false_iff_not] at h1
        exact h1 hm
      show (List.map _ (aset wd _ st1.previews)).Nodup
      rw [aset_of_not_mem _ hw, List.map_append]
      simp only [List.map_cons, List.map_nil]
      rw [List.nodup_append]
      refine ⟨hports1, List.nodup_singleton _, ?_⟩
      intro a ha hb
      simp only [List.mem_singleton] at hb
      subst hb
      exact hnp ha
    unfold PMState.start at hok
    rcases hprev : alookup wd st.previews with _ | info
    · simp only [PMState.getPreview, hprev] at hok
      exact freshCase st (not_mem_of_alookup_eq_none hprev) hports hok
    · rcases hproc : alookup wd st.processes with _ | pr
      · simp only [PMState.getPreview, hprev, hproc] at hok
        cases hok
        exact hports
      · by_cases hdead : pr.returncode.isSome
        · simp only [PMState.getPreview, hprev, hproc, hdead, if_true] at hok
          have hsub : (PMState.usedPorts ⟨aerase wd st.previews, aerase wd st.processes⟩).Sublist
              st.usedPorts := (aerase_sublist wd st.previews).map _
          refine freshCase ⟨aerase wd st.previews, aerase wd st.processes⟩ ?_
            (hports.sublist hsub) hok
          show wd ∉ (aerase wd st.previews).map Prod.fst
          rw [keys_aerase]
          intro hm
          exact ((hkeys.mem_erase_iff).mp hm).1 rfl
        · simp only [PMState.getPreview, hprev, hproc, hdead, if_false] at hok
          cases hok
          exact hports
  · intro st wd hports
    have hsub : ((st.stop wd).2).usedPorts.Sublist st.usedPorts := by
      unfold PMState.stop
      rcases alookup wd st.processes with _ | _
      · exact (aerase_sublist wd st.previews).map _
      · exact (aerase_sublist wd st.previews).map _
    exact hports.sublist hsub

/-- Witness for C9 (determinism conjunct at concrete inputs): the chosen
port depends only on membership of the in-use set. -/
theorem preview_port_selection_witness :
    findFreePort (fun _ => 5) (fun _ => true) [8106] (some "d")
      = findFreePort (fun _ => 5) (fun _ => true) [8106, 8106] (some "d") := by
  exact preview_port_selection.2.1 (fun _ => 5) (fun _ => true) [8106] [8106, 8106] "d"
    (fun q => by simp)

/-! ## C1: per-conversation mutual exclusion, cancel-then-proceed-or-busy -/

theorem get?_set_cases {l : List HandlerPhase} {i j : Nat} {v w : HandlerPhase}
    (h : (l.set i v).get? j = some w) :
    (j = i ∧ v = w ∧ i < l.length) ∨ (j ≠ i ∧ l.get? j = some w) := by
  by_cases hij : j = i
  · subst hij
    by_cases hi : j < l.length
    · rw [List.get?_set_eq_of_lt _ hi] at h
      cases h
      exact Or.inl ⟨rfl, rfl, hi⟩
    · rw [List.set_eq_of_length_le (le_of_not_lt hi)] at h
      rw [List.get?_eq_none.mpr (le_of_not_lt hi)] at h
      cases h
  · rw [List.get?_set_ne _ _ (fun hh => hij hh.symm)] at h
    exact Or.inr ⟨hij, h⟩

theorem get?_append_one {l : List HandlerPhase} {x : HandlerPhase} {i : Nat}
    {w : HandlerPhase} (h : (l ++ [x]).get? i = some w) :
    l.get? i = some w ∨ (i = l.length ∧ w = x) := by
  by_cases hi : i < l.length
  · rw [List.get?_append hi] at h
    exact Or.inl h
  · rw [List.get?_append_right (le_of_not_lt hi)] at h
    rcases hk : i - l.length with _ | k
    · rw [hk] at h
      cases h
      exact Or.inr ⟨by omega, rfl⟩
    · rw [hk] at h
      cases h

/-- Each controller step preserves the mutual-exclusion invariant. -/
theorem concStep_inv {s : ConcState} {l : ConcLabel} {s' : ConcState}
    (hstep : ConcStep s l s') (hinv : ConcInv s) : ConcInv s' := by
  obtain ⟨huniq, hfree⟩ := hinv
  cases hstep with
  | arrive =>
      refine ⟨?_, ?_⟩
      · intro i j hi hj
        rcases get?_append_one hi with hi' | ⟨_, hw⟩
        · rcases get?_append_one hj with hj' | ⟨_, hw⟩
          · exact huniq i j hi' hj'
          · cases hw
        · cases hw
      · intro hl i hi
        rcases get?_append_one hi with hi' | ⟨_, hw⟩
        · exact hfree hl i hi'
        · cases hw
  | checkFree i hstart hl =>
      refine ⟨?_, ?_⟩
      · intro a b ha hb
        rcases get?_set_cases ha with ⟨_, hv, _⟩ | ⟨_, ha'⟩
        · cases hv
        · exact absurd ha' (hfree hl a)
      · intro hl' a ha
        rcases get?_set_cases ha with ⟨_, hv, _⟩ | ⟨_, ha'⟩
        · cases hv
        · exact hfree hl a ha'
  | checkHeldCancel i hstart hl =>
      refine ⟨?_, ?_⟩
      · intro a b ha hb
        rcases get?_set_cases ha with ⟨_, hv, _⟩ | ⟨_, ha'⟩
        · cases hv
        · rcases get?_set_cases hb with ⟨_, hv, _⟩ | ⟨_, hb'⟩
          · cases hv
          · exact huniq a b ha' hb'
      · intro hl' a ha
        rw [show (⟨s.lockHeld, s.handlers.set i .cancelWait⟩ : ConcState).lockHeld
            = s.lockHeld from rfl] at hl'
        rcases get?_set_cases ha with ⟨_, hv, _⟩ | ⟨_, ha'⟩
        · cases hv
        · exact hfree hl' a ha'
  | waitFreed i hcw hl =>
      refine ⟨?_, ?_⟩
      · intro a b ha hb
        rcases get?_set_cases ha with ⟨_, hv, _⟩ | ⟨_, ha'⟩
        · cases hv
        · exact absurd ha' (hfree hl a)
      · intro hl' a ha
        rcases get?_set_cases ha with ⟨_, hv, _⟩ | ⟨_, ha'⟩
        · cases hv
        · exact hfree hl a ha'
  | waitTimeoutBusy i hcw =>
      refine ⟨?_, ?_⟩
      · intro a b ha hb
        rcases get?_set_cases ha with ⟨_, hv, _⟩ | ⟨_, ha'⟩
        · cases hv
        · rcases get?_set_cases hb with ⟨_, hv, _⟩ | ⟨_, hb'⟩
          · cases hv
          · exact huniq a b ha' hb'
      · intro hl' a ha
        rcases get?_set_cases ha with ⟨_, hv, _⟩ | ⟨_, ha'⟩
        · cases hv
        · exact hfree hl' a ha'
  | acquireSpawn i hacq hl =>
      refine ⟨?_, ?_⟩
      · intro a b ha hb
        rcases get?_set_cases ha with ⟨hai, _, _⟩ | ⟨_, ha'⟩
        · rcases get?_set_cases hb with ⟨hbi, _, _⟩ | ⟨_, hb'⟩
          · rw [hai, hbi]
          · exact absurd hb' (hfree hl b)
        · exact absurd ha' (hfree hl a)
      · intro hl' a ha
        cases hl'
  | finishRelease i hrun =>
      refine ⟨?_, ?_⟩
      · intro a b ha hb
        rcases get?_set_cases ha with ⟨_, hv, _⟩ | ⟨hai, ha'⟩
        · cases hv
        · exact absurd (huniq a i ha' hrun) hai
      · intro _ a ha
        rcases get?_set_cases ha with ⟨_, hv, _⟩ | ⟨hai, ha'⟩
        · cases hv
        · exact absurd (huniq a i ha' hrun) hai
  | crashRelease i hrun =>
      refine ⟨?_, ?_⟩
      · intro a b ha hb
        rcases get?_set_cases ha with ⟨_, hv, _⟩ | ⟨hai, ha'⟩
        · cases hv
        · exact absurd (huniq a i ha' hrun) hai
      · intro _ a ha
        rcases get?_set_cases ha with ⟨_, hv, _⟩ | ⟨hai, ha'⟩
        · cases hv
        · exact absurd (huniq a i ha' hrun) hai

theorem concReach_inv {s : ConcState} (h : ConcReach concInit s) : ConcInv s := by
  induction h with
  | refl =>
      refine ⟨?_, ?_⟩
      · intro i j hi _
        simp [concInit] at hi
      · intro _ i hi
        simp [concInit] at hi
  | tail _ hstep ih =>
      obtain ⟨l, hl⟩ := hstep
      exact concStep_inv hl ih

/-- The lock discipline of `_handle_message` itself is implemented correctly:
1. in every reachable state at most one handler is in the locked `running`
   phase;
2. a handler that finds the lock held leaves `start` only by issuing the
   cancellation request against the active process (`checkHeldCancel`);
3. from the cancel-wait it either proceeds toward acquiring the lock (only
   once the lock is free) or reports `busy`; nothing else;
4. a handler that reported `busy` stays terminal: the dropped input is never
   queued or resumed.  (The 5-second bounds on the two waits are real-time
   behaviour and are abstracted into the nondeterministic timeout step.) -/
theorem conc_lock_discipline :
    (∀ s, ConcReach concInit s → ∀ i j,
        s.handlers.get? i = some .running → s.handlers.get? j = some .running → i = j)
    ∧ (∀ s l s' i, ConcStep s l s' → s.handlers.get? i = some .start →
        s.lockHeld = true → s'.handlers.get? i ≠ some .start →
        l = .checkHeldCancel i ∧ s'.handlers.get? i = some .cancelWait)
    ∧ (∀ s l s' i, ConcStep s l s' → s.handlers.get? i = some .cancelWait →
        s'.handlers.get? i ≠ some .cancelWait →
        (l = .waitFreed i ∧ s'.handlers.get? i = some .acquiring ∧ s.lockHeld = false)
        ∨ (l = .waitTimeoutBusy i ∧ s'.handlers.get? i = some .doneBusy))
    ∧ (∀ s l s' i, ConcStep s l s' → s.handlers.get? i = some .doneBusy →
        s'.handlers.get? i = some .doneBusy) := by
  have hlen : ∀ (hs : List HandlerPhase) (i : Nat) (w : HandlerPhase),
      hs.get? i = some w → i < hs.length := by
    intro hs i w h
    by_contra hn
    rw [List.get?_eq_none.mpr (le_of_not_lt hn)] at h
    cases h
  have hset_self : ∀ (hs : List HandlerPhase) (i : Nat) (v w : HandlerPhase),
      hs.get? i = some w → (hs.set i v).get? i = some v := by
    intro hs i v w h
    exact List.get?_set_eq_of_lt _ (hlen hs i w h)
  have hset_other : ∀ (hs : List HandlerPhase) (i j : Nat) (v : HandlerPhase),
      j ≠ i → (hs.set j v).get? i = hs.get? i := by
    intro hs i j v hne
    exact List.get?_set_ne _ _ hne
  refine ⟨?_, ?_, ?_, ?_⟩
  · intro s hs i j hi hj
    exact (concReach_inv hs).1 i j hi hj
  · intro s l s' i hstep hstart hlock hmoved
    cases hstep with
    | arrive =>
        refine absurd ?_ hmoved
        show (s.handlers ++ [HandlerPhase.start]).get? i = some .start
        rw [List.get?_append (hlen _ _ _ hstart)]
        exact hstart
    | checkFree j hj hl =>
        by_cases hij : j = i
        · subst hij
          rw [hl] at hlock
          cases hlock
        · rw [hset_other _ _ _ _ hij] at hmoved
          exact absurd hstart hmoved
    | checkHeldCancel j hj hl =>
        by_cases hij : j = i
        · subst hij
          exact ⟨rfl, hset_self _ _ _ _ hstart⟩
        · rw [hset_other _ _ _ _ hij] at hmoved
          exact absurd hstart hmoved
    | waitFreed j hj hl =>
        by_cases hij : j = i
        · subst hij
          rw [hstart] at hj
          cases hj
        · rw [hset_other _ _ _ _ hij] at hmoved
          exact absurd hstart hmoved
    | waitTimeoutBusy j hj =>
        by_cases hij : j = i
        · subst hij
          rw [hstart] at hj
          cases hj
        · rw [hset_other _ _ _ _ hij] at hmoved
          exact absurd hstart hmoved
    | acquireSpawn j hj hl =>
        by_cases hij : j = i
        · subst hij
          rw [hstart] at hj
          cases hj
        · rw [hset_other _ _ _ _ hij] at hmoved
          exact absurd hstart hmoved
    | finishRelease j hj =>
        by_cases hij : j = i
        · subst hij
          rw [hstart] at hj
          cases hj
        · rw [hset_other _ _ _ _ hij] at hmoved
          exact absurd hstart hmoved
    | crashRelease j hj =>
        by_cases hij : j = i
        · subst hij
          rw [hstart] at hj
          cases hj
        · rw [hset_other _ _ _ _ hij] at hmoved
          exact absurd hstart hmoved
  · intro s l s' i hstep hcw hmoved
    cases hstep with
    | arrive =>
        refine absurd ?_ hmoved
        show (s.handlers ++ [HandlerPhase.start]).get? i = some .cancelWait
        rw [List.get?_append (hlen _ _ _ hcw)]
        exact hcw
    | checkFree j hj hl =>
        by_cases hij : j = i
        · subst hij; rw [hcw] at hj; cases hj
        · rw [hset_other _ _ _ _ hij] at hmoved
          exact absurd hcw hmoved
    | checkHeldCancel j hj hl =>
        by_cases hij : j = i
        · subst hij; rw [hcw] at hj; cases hj
        · rw [hset_other _ _ _ _ hij] at hmoved
          exact absurd hcw hmoved
    | waitFreed j hj hl =>
        by_cases hij : j = i
        · subst hij
          exact Or.inl ⟨rfl, hset_self _ _ _ _ hcw, hl⟩
        · rw [hset_other _ _ _ _ hij] at hmoved
          exact absurd hcw hmoved
    | waitTimeoutBusy j hj =>
        by_cases hij : j = i
        · subst hij
          exact Or.inr ⟨rfl, hset_self _ _ _ _ hcw⟩
        · rw [hset_other _ _ _ _ hij] at hmoved
          exact absurd hcw hmoved
    | acquireSpawn j hj hl =>
        by_cases hij : j = i
        · subst hij; rw [hcw] at hj; cases hj
        · rw [hset_other _ _ _ _ hij] at hmoved
          exact absurd hcw hmoved
    | finishRelease j hj =>
        by_cases hij : j = i
        · subst hij; rw [hcw] at hj; cases hj
        · rw [hset_other _ _ _ _ hij] at hmoved
          exact absurd hcw hmoved
    | crashRelease j hj =>
        by_cases hij : j = i
        · subst hij; rw [hcw] at hj; cases hj
        · rw [hset_other _ _ _ _ hij] at hmoved
          exact absurd hcw hmoved
  · intro s l s' i hstep hdb
    cases hstep with
    | arrive =>
        show (s.handlers ++ [HandlerPhase.start]).get? i = some .doneBusy
        rw [List.get?_append (hlen _ _ _ hdb)]
        exact hdb
    | checkFree j hj hl =>
        by_cases hij : j = i
        · subst hij; rw [hdb] at hj; cases hj
        · rw [hset_other _ _ _ _ hij]; exact hdb
    | checkHeldCancel j hj hl =>
        by_cases hij : j = i
        · subst hij; rw [hdb] at hj; cases hj
        · rw [hset_other _ _ _ _ hij]; exact hdb
    | waitFreed j hj hl =>
        by_cases hij : j = i
        · subst hij; rw [hdb] at hj; cases hj
        · rw [hset_other _ _ _ _ hij]; exact hdb
    | waitTimeoutBusy j hj =>
        by_cases hij : j = i
        · subst hij; rw [hdb] at hj; cases hj
        · rw [hset_other _ _ _ _ hij]; exact hdb
    | acquireSpawn j hj hl =>
        by_cases hij : j = i
        · subst hij; rw [hdb] at hj; cases hj
        · rw [hset_other _ _ _ _ hij]; exact hdb
    | finishRelease j hj =>
        by_cases hij : j = i
        · subst hij; rw [hdb] at hj; cases hj
        · rw [hset_other _ _ _ _ hij]; exact hdb
    | crashRelease j hj =>
        by_cases hij : j = i
        · subst hij; rw [hdb] at hj; cases hj
        · rw [hset_other _ _ _ _ hij]; exact hdb

/-- C1 (code bug): the lock discipline of `_handle_message` does keep the
lock exclusive — at most one handler is in the locked `running` phase in any
reachable state — but the claim's "at no point do two agent subprocesses run
concurrently for the same conversation id" fails.  An exception inside the
streaming loop of `_run_claude` is swallowed by its `except` block; its
`finally` pops the `active_processes` registration without terminating the
subprocess, and the lock is released on return.  The orphaned subprocess is
still alive (and no longer reachable even by `cancel`), so the next message
for the same id finds the lock free and spawns a second subprocess while the
first still runs: the state reached by arrive, acquire-and-spawn, crash,
arrive, acquire-and-spawn has two live subprocesses for the one id. -/
theorem conversation_concurrency_bug :
    (∀ s, ConcReach concInit s → ∀ i j,
        s.handlers.get? i = some .running → s.handlers.get? j = some .running → i = j)
    ∧ ConcReach concInit ⟨true, [.doneOrphan, .running]⟩
    ∧ liveSubprocs ⟨true, [.doneOrphan, .running]⟩ = 2 := by
  have h1 : ConcStep concInit .arrive ⟨false, [.start]⟩ := by
    have := ConcStep.arrive concInit
    simpa [concInit] using this
  have h2 : ConcStep ⟨false, [.start]⟩ (.checkFree 0) ⟨false, [.acquiring]⟩ :=
    ConcStep.checkFree ⟨false, [.start]⟩ 0 rfl rfl
  have h3 : ConcStep ⟨false, [.acquiring]⟩ (.acquireSpawn 0) ⟨true, [.running]⟩ :=
    ConcStep.acquireSpawn ⟨false, [.acquiring]⟩ 0 rfl rfl
  have h4 : ConcStep ⟨true, [.running]⟩ (.crashRelease 0) ⟨false, [.doneOrphan]⟩ :=
    ConcStep.crashRelease ⟨true, [.running]⟩ 0 rfl
  have h5 : ConcStep ⟨false, [.doneOrphan]⟩ .arrive ⟨false, [.doneOrphan, .start]⟩ :=
    ConcStep.arrive ⟨false, [.doneOrphan]⟩
  have h6 : ConcStep ⟨false, [.doneOrphan, .start]⟩ (.checkFree 1)
      ⟨false, [.doneOrphan, .acquiring]⟩ :=
    ConcStep.checkFree ⟨false, [.doneOrphan, .start]⟩ 1 rfl rfl
  have h7 : ConcStep ⟨false, [.doneOrphan, .acquiring]⟩ (.acquireSpawn 1)
      ⟨true, [.doneOrphan, .running]⟩ :=
    ConcStep.acquireSpawn ⟨false, [.doneOrphan, .acquiring]⟩ 1 rfl rfl
  refine ⟨fun s hs i j hi hj => (concReach_inv hs).1 i j hi hj, ?_, rfl⟩
  exact Relation.ReflTransGen.head ⟨_, h1⟩ (Relation.ReflTransGen.head ⟨_, h2⟩
    (Relation.ReflTransGen.head ⟨_, h3⟩ (Relation.ReflTransGen.head ⟨_, h4⟩
      (Relation.ReflTransGen.head ⟨_, h5⟩ (Relation.ReflTransGen.head ⟨_, h6⟩
        (Relation.ReflTransGen.single ⟨_, h7⟩))))))

/-! ## C2: the redundant aggregate event is dropped after streaming -/

/-- The assistant fallback path never changes the `saw_streaming` flag. -/
theorem assistantBlocks_saw (cid : String) (blocks : List ContentBlock) :
    ∀ st evs st', assistantBlocks cid st blocks = some (evs, st') →
    st'.sawStreamingEvents = st.sawStreamingEvents := by
  induction blocks with
  | nil =>
      intro st evs st' h
      simp only [assistantBlocks] at h
      cases h
      rfl
  | cons b rest ih =>
      intro st evs st' h
      cases b with
      | text t =>
          simp only [assistantBlocks] at h
          rcases hr : assistantBlocks cid st rest with _ | ⟨evs2, st2⟩
          · rw [hr] at h; cases h
          · rw [hr] at h; cases h
            exact ih st evs2 st' hr
      | other =>
          simp only [assistantBlocks] at h
          exact ih st evs st' h
      | toolUse name input =>
          simp only [assistantBlocks] at h
          rcases hsum : summarizeToolInput name input with _ | summary
          · rw [hsum] at h; cases h
          · rw [hsum] at h
            dsimp only at h
            rcases hX : (if screenshotTools.contains name then
                match input with
                | .obj fs =>
                    match fs.get "filename" with
                    | some (.str s) =>
                        if s ≠ "" then
                          let ap := resolvePath st.cwd s
                          ([ClientEvent.image ap cid],
                           { st with imagePaths := st.imagePaths ++ [ap] })
                        else ([], st)
                    | _ => ([], st)
                | _ => ([], st)
              else ([], st)) with ⟨imgEvs, st1⟩
            rw [hX] at h
            dsimp only at h
            have hsts : st1.sawStreamingEvents = st.sawStreamingEvents := by
              split at hX
              · split at hX
                · split at hX
                  · split at hX
                    · cases hX; rfl
                    · cases hX; rfl
                  · cases hX; rfl
                · cases hX; rfl
              · cases hX; rfl
            rcases hr : assistantBlocks cid st1 rest with _ | ⟨evs2, st2⟩
            · rw [hr] at h; cases h
            · rw [hr] at h; cases h
              rw [ih st1 evs2 st' hr, hsts]

/-- The translator's `saw_streaming` flag is sticky: no successful step
clears it, and any `content_block_start` / `content_block_delta` sets it. -/
theorem fwdStep_saw (cid : String) (st : FwdState) (e : StreamEvent)
    (evs : List ClientEvent) (st' : FwdState)
    (h : fwdStep cid st e = some (evs, st')) :
    (st.sawStreamingEvents = true → st'.sawStreamingEvents = true)
    ∧ (isStreamingBlockEvent e = true → st'.sawStreamingEvents = true) := by
  cases e with
  | contentBlockStart block =>
      simp only [fwdStep] at h
      repeat' split at h
      all_goals cases h
      all_goals exact ⟨fun _ => rfl, fun _ => rfl⟩
  | contentBlockDelta d =>
      simp only [fwdStep] at h
      repeat' split at h
      all_goals cases h
      all_goals exact ⟨fun _ => rfl, fun _ => rfl⟩
  | contentBlockStop =>
      simp only [fwdStep] at h
      rcases hat : st.activeToolName with _ | name
      · rw [hat] at h
        cases h
        exact ⟨fun hs => hs, fun hf => by cases hf⟩
      · rw [hat] at h
        dsimp only at h
        split at h
        · cases h
        case _ startEvs hstart =>
          split at h
          · cases h
          case _ imgEvs st1 himg =>
            cases h
            have hsts : st1.sawStreamingEvents = st.sawStreamingEvents := by
              repeat' split at himg
              all_goals cases himg
              all_goals rfl
            exact ⟨fun hs => by
                show st1.sawStreamingEvents = true
                rw [hsts]; exact hs,
              fun hf => by cases hf⟩
  | assistant blocks =>
      simp only [fwdStep] at h
      split at h
      case _ hsaw =>
        cases h
        exact ⟨fun hs => hs, fun hf => by cases hf⟩
      case _ hsaw =>
        have hab := assistantBlocks_saw cid blocks st evs st' h
        exact ⟨fun hs => hab ▸ hs, fun hf => by cases hf⟩
  | result isErr sid rtext =>
      simp only [fwdStep] at h
      cases h
      exact ⟨fun hs => hs, fun hf => by cases hf⟩
  | other =>
      simp only [fwdStep] at h
      cases h
      exact ⟨fun hs => hs, fun hf => by cases hf⟩

/-- Running the translator over a sequence containing at least one streaming
block event leaves the sticky flag set. -/
theorem fwdRun_saw (cid : String) (events : List StreamEvent) :
    ∀ st evs st', fwdRun cid st events = some (evs, st') →
    ((∃ e ∈ events, isStreamingBlockEvent e = true) ∨ st.sawStreamingEvents = true) →
    st'.sawStreamingEvents = true := by
  induction events with
  | nil =>
      intro st evs st' h hc
      simp only [fwdRun] at h
      cases h
      rcases hc with ⟨e, he, _⟩ | hs
      · cases he
      · exact hs
  | cons e rest ih =>
      intro st evs st' h hc
      simp only [fwdRun] at h
      rcases h1 : fwdStep cid st e with _ | ⟨evs1, st1⟩
      · rw [h1] at h; cases h
      · rw [h1] at h
        dsimp only at h
        rcases h2 : fwdRun cid st1 rest with _ | ⟨evs2, st2⟩
        · rw [h2] at h; cases h
        · rw [h2] at h
          cases h
          rcases hc with ⟨e0, he0, hse0⟩ | hs
          · rcases List.mem_cons.mp he0 with rfl | he0'
            · exact ih st1 evs2 st' h2 (Or.inr ((fwdStep_saw cid st e0 evs1 st1 h1).2 hse0))
            · exact ih st1 evs2 st' h2 (Or.inl ⟨e0, he0', hse0⟩)
          · exact ih st1 evs2 st' h2 (Or.inr ((fwdStep_saw cid st e evs1 st1 h1).1 hs))

/-- C2: translator dedup law.  After any successfully translated event
sequence containing at least one streaming block event
(`content_block_start` or `content_block_delta`), a subsequent aggregate
`assistant` event yields zero additional client events — no `text_delta`,
`tool_start`, `tool_done` or `image` — and leaves the translator state
unchanged. -/
theorem translator_dedup (cid : String) (cwd : Option String)
    (events : List StreamEvent) (blocks : List ContentBlock)
    (evs : List ClientEvent) (st : FwdState)
    (hrun : fwdRun cid (FwdState.init cwd) events = some (evs, st))
    (hstreaming : ∃ e ∈ events, isStreamingBlockEvent e = true) :
    fwdStep cid st (.assistant blocks) = some ([], st) := by
  have hsaw := fwdRun_saw cid events _ evs st hrun (Or.inl hstreaming)
  simp [fwdStep, hsaw]

/-- Witness for C2: after one streamed text delta, a redundant aggregate
with different text is dropped entirely. -/
theorem translator_dedup_witness :
    fwdStep "c1" ⟨true, none, [], false, [], some "/w"⟩
        (.assistant [.text "Hello from assistant"])
      = some ([], ⟨true, none, [], false, [], some "/w"⟩) := by
  exact translator_dedup "c1" (some "/w")
    [.contentBlockDelta (.textDelta "Hi")] [.text "Hello from assistant"]
    [.textDelta "Hi" "c1"] ⟨true, none, [], false, [], some "/w"⟩
    rfl ⟨.contentBlockDelta (.textDelta "Hi"), by simp, rfl⟩

/-! ## C3/C4: the stale-token retry -/

/-- With no resumption token supplied, `_run_claude` can never take the
retry branch: one unit of fuel fully describes it. -/
theorem runClaudeRec_succ_none (fuel : Nat) (cid : String) (store : Option String)
    (ft : Bool) (cwd : Option String) (attempts : Nat → List StreamEvent) :
    runClaudeRec (fuel + 1) cid store none ft cwd attempts =
      match runLoop cid (initLoopState none cwd) (attempts 0) with
      | none => some ⟨[.errorEvt "claude subprocess error"], store, 1, true⟩
      | some st => some ⟨(finishTurn cid store st).2, (finishTurn cid store st).1, 1, false⟩ := by
  unfold runClaudeRec
  rcases hl : runLoop cid (initLoopState none cwd) (attempts 0) with _ | st
  · rfl
  · simp only [optStrTruthy, Bool.and_false, Bool.false_and, Bool.false_eq_true, if_false]

/-- C4: the stale-token retry fires at most once per client-visible turn.
Fuel 2 always suffices for the recursion in `_run_claude` (the retried
invocation runs with no resumption token, so the retry condition can never
hold again); more fuel changes nothing; and at most two subprocess attempts
are ever made. -/
theorem staleTokenRetry_bounded :
    (∀ (cid : String) (store sid : Option String) (ft : Bool) (cwd : Option String)
       (attempts : Nat → List StreamEvent),
       (runClaudeRec 2 cid store sid ft cwd attempts).isSome = true)
    ∧ (∀ (fuel : Nat) (cid : String) (store sid : Option String) (ft : Bool)
       (cwd : Option String) (attempts : Nat → List StreamEvent), 2 ≤ fuel →
       runClaudeRec fuel cid store sid ft cwd attempts
         = runClaudeRec 2 cid store sid ft cwd attempts)
    ∧ (∀ (fuel : Nat) (cid : String) (store sid : Option String) (ft : Bool)
       (cwd : Option String) (attempts : Nat → List StreamEvent) (r : TurnResult),
       runClaudeRec fuel cid store sid ft cwd attempts = some r → r.attempts ≤ 2) := by
  refine ⟨?_, ?_, ?_⟩
  · intro cid store sid ft cwd attempts
    show (runClaudeRec (1 + 1) cid store sid ft cwd attempts).isSome = true
    unfold runClaudeRec
    rcases hl : runLoop cid (initLoopState sid cwd) (attempts 0) with _ | st
    · rfl
    · dsimp only
      split
      · rw [runClaudeRec_succ_none 0 cid none true cwd (fun n => attempts (n + 1))]
        rcases hl2 : runLoop cid (initLoopState none cwd) (attempts (0 + 1)) with _ | st2
        · rfl
        · rfl
      · rfl
  · intro fuel cid store sid ft cwd attempts hfuel
    obtain ⟨f, rfl⟩ : ∃ f, fuel = f + 2 := ⟨fuel - 2, by omega⟩
    show runClaudeRec (f + 1 + 1) cid store sid ft cwd attempts
      = runClaudeRec (1 + 1) cid store sid ft cwd attempts
    unfold runClaudeRec
    rcases hl : runLoop cid (initLoopState sid cwd) (attempts 0) with _ | st
    · rfl
    · dsimp only
      split
      · rw [runClaudeRec_succ_none f cid none true cwd (fun n => attempts (n + 1)),
            runClaudeRec_succ_none 0 cid none true cwd (fun n => attempts (n + 1))]
      · rfl
  · intro fuel cid store sid ft cwd attempts r hr
    match fuel with
    | 0 => cases hr
    | f + 1 =>
      unfold runClaudeRec at hr
      rcases hl : runLoop cid (initLoopState sid cwd) (attempts 0) with _ | st
      · rw [hl] at hr
        cases hr
        simp
      · rw [hl] at hr
        try dsimp only at hr
        split at hr
        · match f, hr with
          | 0, hr => cases hr
          | g + 1, hr =>
            rw [runClaudeRec_succ_none g cid none true cwd (fun n => attempts (n + 1))] at hr
            rcases hl2 : runLoop cid (initLoopState none cwd) (attempts (0 + 1)) with _ | st2
            · rw [hl2] at hr
              cases hr
              simp
            · rw [hl2] at hr
              cases hr
              simp
        · cases hr
          simp

/-- Witness for C4: at fuel 3 and fuel 2 the result agrees on a concrete
retrying run (an error result with a supplied token and empty transcript). -/
theorem staleTokenRetry_bounded_witness :
    runClaudeRec 3 "c1" (some "tok") (some "tok") false none
        (fun _ => [.result true none ""])
      = runClaudeRec 2 "c1" (some "tok") (some "tok") false none
        (fun _ => [.result true none ""]) := by
  exact staleTokenRetry_bounded.2.1 3 "c1" (some "tok") (some "tok") false none
    (fun _ => [.result true none ""]) (by omega)

/-- C3: the stale-token retry. If the first attempt's terminal result was an
error, a resumption token was supplied for the turn, and no transcript text
was accumulated, then the stored token is cleared (it survives only if the
retried attempt stores a fresh one — the retry's completion path runs with a
cleared store), the client is notified by the interim
"Session expired, retrying..." error right after the first attempt's events,
and the whole procedure is re-invoked exactly once with no resumption token
and first-turn semantics, consuming the next attempt's event stream.  If any
of the three preconditions fails, no retry occurs: a single attempt
completes normally. -/
theorem staleTokenRetry (cid : String) (store sid : Option String)
    (ft : Bool) (cwd : Option String) (attempts : Nat → List StreamEvent) (st : LoopState)
    (hloop : runLoop cid (initLoopState sid cwd) (attempts 0) = some st) :
    (st.resultIsError = true → optStrTruthy sid = true → st.accumulatedText = "" →
      runClaudeRec 2 cid store sid ft cwd attempts =
        (match runLoop cid (initLoopState none cwd) (attempts 1) with
         | none => some ⟨st.sent ++ .errorEvt "Session expired, retrying..." ::
                         [.errorEvt "claude subprocess error"], none, 2, true⟩
         | some st2 => some ⟨st.sent ++ .errorEvt "Session expired, retrying..." ::
                             (finishTurn cid none st2).2,
                             (finishTurn cid none st2).1, 2, false⟩))
    ∧ ((st.resultIsError = false ∨ optStrTruthy sid = false ∨ st.accumulatedText ≠ "") →
      runClaudeRec 2 cid store sid ft cwd attempts
        = some ⟨(finishTurn cid store st).2, (finishTurn cid store st).1, 1, false⟩) := by
  constructor
  · intro herr htok hacc
    show runClaudeRec (1 + 1) cid store sid ft cwd attempts = _
    unfold runClaudeRec
    rw [hloop]
    dsimp only
    have hcond : (st.resultIsError && optStrTruthy sid
        && decide (st.accumulatedText = "")) = true := by
      rw [herr, htok, hacc]
      decide
    rw [if_pos hcond]
    rw [runClaudeRec_succ_none 0 cid none true cwd (fun n => attempts (n + 1))]
    rcases hl2 : runLoop cid (initLoopState none cwd) (attempts (0 + 1)) with _ | st2
    all_goals rfl
  · intro hfail
    show runClaudeRec (1 + 1) cid store sid ft cwd attempts = _
    unfold runClaudeRec
    rw [hloop]
    dsimp only
    have hcond : (st.resultIsError && optStrTruthy sid
        && decide (st.accumulatedText = "")) = false := by
      rcases hfail with h | h | h
      · rw [h]; rfl
      · rw [h]; simp
      · simp [h]
    rw [if_neg (by rw [hcond]; exact Bool.false_ne_true)]

/-- Witness for C3 at a concrete scenario (the spec's `c1` scenario): the
stored token `tok` was supplied, the first attempt ends in an error result
with no transcript; the retried attempt (no token) succeeds with a new
session id, which is stored; the client saw the interim retry error. -/
theorem staleTokenRetry_witness :
    runClaudeRec 2 "c1" (some "tok") (some "tok") false (some "/w")
        (fun n => if n = 0 then [.result true none ""]
                  else [.result false (some "newtok") "ok"])
      = some ⟨[.errorEvt "Session expired, retrying...",
               .textDelta "ok" "c1",
               .messageComplete "c1" (some "newtok")],
              some "newtok", 2, false⟩ := by
  have h := (staleTokenRetry "c1" (some "tok") (some "tok") false (some "/w")
    (fun n => if n = 0 then [.result true none ""]
              else [.result false (some "newtok") "ok"])
    ⟨"", false, true, false, some "tok", FwdState.init (some "/w"), []⟩ rfl).1 rfl rfl rfl
  rw [h]
  rfl

/-! ## C5: session ids from error results are never persisted -/

/-- One loop step changes the captured session id only by adopting the id of
a non-error result event. -/
theorem loopStep_session (cid : String) (st : LoopState) (e : StreamEvent) (st' : LoopState)
    (h : loopStep cid st e = some st') (s : String) (hs : st'.newSessionId = some s) :
    st.newSessionId = some s ∨ ∃ rt, e = .result false (some s) rt := by
  simp only [loopStep] at h
  rcases hf : fwdStep cid st.fwd e with _ | ⟨evs, fwd'⟩
  · rw [hf] at h; cases h
  · rw [hf] at h
    dsimp only at h
    cases e with
    | contentBlockStart block =>
        cases block with
        | toolUse name input => cases h; exact Or.inl hs
        | text t => cases h; exact Or.inl hs
        | other => cases h; exact Or.inl hs
    | contentBlockDelta d =>
        cases d with
        | textDelta t => cases h; exact Or.inl hs
        | inputJsonDelta frag => cases h; exact Or.inl hs
        | other => cases h; exact Or.inl hs
    | contentBlockStop => cases h; exact Or.inl hs
    | assistant blocks =>
        dsimp only at h
        split at h
        · cases h; exact Or.inl hs
        · cases h; exact Or.inl hs
    | other => cases h; exact Or.inl hs
    | result isErr sid rtext =>
        dsimp only at h
        have key : ∀ (b : Bool) (sd : Option String),
            (if b = true then st.newSessionId
             else match sd with | some s' => some s' | none => st.newSessionId) = some s →
            st.newSessionId = some s ∨ (b = false ∧ sd = some s) := by
          intro b sd hifs
          cases b
          · simp only [Bool.false_eq_true, if_false] at hifs
            rcases sd with _ | s'
            · exact Or.inl hifs
            · cases hifs
              exact Or.inr ⟨rfl, rfl⟩
          · simp only [if_true] at hifs
            exact Or.inl hifs
        split at h
        · cases h
          rcases key isErr sid hs with h3 | ⟨hb, hsd⟩
          · exact Or.inl h3
          · exact Or.inr ⟨rtext, by rw [hb, hsd]⟩
        · cases h
          rcases key isErr sid hs with h3 | ⟨hb, hsd⟩
          · exact Or.inl h3
          · exact Or.inr ⟨rtext, by rw [hb, hsd]⟩

/-- Across a whole streamed attempt: the captured session id is the supplied
one or stems from a non-error result event of the stream. -/
theorem runLoop_session (cid : String) (events : List StreamEvent) :
    ∀ st st', runLoop cid st events = some st' → ∀ s, st'.newSessionId = some s →
    st.newSessionId = some s
      ∨ ∃ rt, (StreamEvent.result false (some s) rt) ∈ events := by
  induction events with
  | nil =>
      intro st st' h s hs
      simp only [runLoop] at h
      cases h
      exact Or.inl hs
  | cons e rest ih =>
      intro st st' h s hs
      simp only [runLoop] at h
      rcases h1 : loopStep cid st e with _ | st1
      · rw [h1] at h; cases h
      · rw [h1] at h
        rcases ih st1 st' h s hs with h2 | ⟨rt, h2⟩
        · rcases loopStep_session cid st e st1 h1 s h2 with h3 | ⟨rt, h3⟩
          · exact Or.inl h3
          · exact Or.inr ⟨rt, by rw [h3]; exact List.mem_cons_self _ _⟩
        · exact Or.inr ⟨rt, List.mem_cons_of_mem _ h2⟩

/-- C5: a resumption token carried by an error result is never persisted.
For a turn started with the conversation's stored token (as `_handle_message`
resolves it), whatever token is stored afterwards is either the previously
stored one or a session id taken from a non-error result event of one of the
attempts; in particular no `is_error` result's session id is ever stored. -/
theorem errorResultToken_never_persisted (fuel : Nat) (cid : String)
    (store : Option String) (ft : Bool) (cwd : Option String)
    (attempts : Nat → List StreamEvent) (r : TurnResult)
    (hr : runClaudeRec fuel cid store store ft cwd attempts = some r)
    (s : String) (hstore : r.store = some s) :
    store = some s ∨ ∃ n rt, (StreamEvent.result false (some s) rt) ∈ attempts n := by
  induction fuel generalizing store ft attempts r with
  | zero => cases hr
  | succ f ih =>
      unfold runClaudeRec at hr
      rcases hl : runLoop cid (initLoopState store cwd) (attempts 0) with _ | st
      · rw [hl] at hr
        cases hr
        exact Or.inl hstore
      · rw [hl] at hr
        dsimp only at hr
        split at hr
        · rcases h2 : runClaudeRec f cid none none true cwd (fun n => attempts (n + 1))
            with _ | r2
          all_goals rw [h2] at hr
          · cases hr
          · cases hr
            rcases ih none true (fun n => attempts (n + 1)) r2 h2 hstore with h3 | ⟨n, rt, h3⟩
            · cases h3
            · exact Or.inr ⟨n + 1, rt, h3⟩
        · cases hr
          simp only [finishTurn] at hstore
          split at hstore
          · rcases runLoop_session cid (attempts 0) (initLoopState store cwd) st hl s hstore
              with h3 | ⟨rt, h3⟩
            · exact Or.inl h3
            · exact Or.inr ⟨0, rt, h3⟩
          · exact Or.inl hstore

/-- Witness for C5: a turn whose only result event is non-error with session
id `new` stores it; the theorem's disjunction holds at this run. -/
theorem errorResultToken_never_persisted_witness :
    (some "old" : Option String) = some "new"
      ∨ ∃ n rt, (StreamEvent.result false (some "new") rt)
          ∈ (fun _ : Nat => [StreamEvent.result false (some "new") "hi"]) n := by
  exact errorResultToken_never_persisted 2 "c1" (some "old") false none
    (fun _ => [.result false (some "new") "hi"])
    ⟨[.textDelta "hi" "c1", .messageComplete "c1" (some "new")], some "new", 1, false⟩
    rfl "new" rfl

/-! ## C6: tool-input chunk accumulation through the JSON round-trip -/

theorem skipSp_append (l t : List Char) (h : skipSp l ≠ []) :
    skipSp (l ++ t) = skipSp l ++ t := by
  induction l with
  | nil => exact absurd rfl h
  | cons c r ih =>
      by_cases hc : c = ' '
      · subst hc
        have h1 : skipSp (' ' :: r) = skipSp r := by
          simp [skipSp, List.dropWhile]
        rw [h1] at h ⊢
        have h2 : skipSp ((' ' :: r) ++ t) = skipSp (r ++ t) := by
          simp [skipSp, List.dropWhile]
        rw [h2]
        exact ih h
      · have h1 : skipSp (c :: r) = c :: r := by
          simp [skipSp, List.dropWhile, hc]
        have h2 : skipSp ((c :: r) ++ t) = c :: (r ++ t) := by
          simp [skipSp, List.dropWhile, hc]
        rw [h1, h2]
        rfl

theorem skipSp_cons_ne (c : Char) (r : List Char) (hc : c ≠ ' ') :
    skipSp (c :: r) = c :: r := by
  simp [skipSp, List.dropWhile, hc]

theorem skipSp_cons_sp (r : List Char) : skipSp (' ' :: r) = skipSp r := by
  simp [skipSp, List.dropWhile]

theorem numChunk (d rest : List Char) (hd : d.all Char.isDigit = true)
    (hr : goodRest rest = true) :
    (d ++ rest).takeWhile Char.isDigit = d ∧ (d ++ rest).dropWhile Char.isDigit = rest := by
  induction d with
  | nil =>
      cases rest with
      | nil => exact ⟨rfl, rfl⟩
      | cons c r0 =>
          simp only [goodRest, Bool.not_eq_true'] at hr
          simp [List.takeWhile, List.dropWhile, hr]
  | cons c d' ih =>
      simp only [List.all_cons, Bool.and_eq_true] at hd
      have := ih hd.2
      simp [List.takeWhile_cons, List.dropWhile_cons, hd.1, this.1, this.2]

theorem parseStrBody_cons (c : Char) (r0 : List Char) :
    parseStrBody (c :: r0) =
      (if c = '"' then some ([], r0)
       else if c = '\\' then
         (match r0 with
          | [] => none
          | c2 :: r2 =>
              if c2 = '"' ∨ c2 = '\\' then
                (match parseStrBody r2 with
                 | some (s, r') => some (c2 :: s, r')
                 | none => none)
              else none)
       else
         (match parseStrBody r0 with
          | some (s, r') => some (c :: s, r')
          | none => none)) := by
  rw [parseStrBody.eq_def]

theorem parseStrBody_complete (cs : List Char) :
    ∀ rest : List Char,
      parseStrBody (cs.foldr (fun c acc => escapeChar c ++ acc) [] ++ '"' :: rest)
        = some (cs, rest) := by
  induction cs with
  | nil =>
      intro rest
      simp [parseStrBody_cons]
  | cons c cs' ih =>
      intro rest
      by_cases hc : c = '"' ∨ c = '\\'
      · have hesc : escapeChar c = ['\\', c] := by rw [escapeChar, if_pos hc]
        simp only [List.foldr_cons, hesc, List.cons_append, List.nil_append]
        rw [parseStrBody_cons, if_neg (by decide), if_pos rfl]
        dsimp only
        rw [if_pos hc, ih rest]
      · push_neg at hc
        have hesc : escapeChar c = [c] := by
          rw [escapeChar, if_neg]
          simp [hc.1, hc.2]
        simp only [List.foldr_cons, hesc, List.cons_append, List.nil_append]
        rw [parseStrBody_cons, if_neg hc.1, if_neg hc.2, ih rest]

theorem parseStrBody_mono : ∀ (n : Nat) (l : List Char), l.length ≤ n →
    ∀ cs r t, parseStrBody l = some (cs, r) →
      parseStrBody (l ++ t) = some (cs, r ++ t) := by
  intro n
  induction n with
  | zero =>
      intro l hl cs r t h
      have hnil : l = [] := by
        cases l with
        | nil => rfl
        | cons a b => simp at hl
      subst hnil
      exact absurd h (by simp [parseStrBody])
  | succ n ih =>
      intro l hl cs r t h
      cases l with
      | nil => exact absurd h (by simp [parseStrBody])
      | cons c r0 =>
          rw [parseStrBody_cons] at h
          rw [List.cons_append, parseStrBody_cons]
          by_cases hc : c = '"'
          · rw [if_pos hc] at h ⊢
            cases h
            rfl
          · rw [if_neg hc] at h ⊢
            by_cases hb : c = '\\'
            · rw [if_pos hb] at h ⊢
              cases r0 with
              | nil => exact absurd h (by simp)
              | cons c2 r2 =>
                  simp only [List.cons_append]
                  dsimp only at h ⊢
                  by_cases hc2 : c2 = '"' ∨ c2 = '\\'
                  · rw [if_pos hc2] at h ⊢
                    rcases hp : parseStrBody r2 with _ | ⟨s', r'⟩
                    · rw [hp] at h; exact absurd h (by simp)
                    · rw [hp] at h
                      simp only [Option.some.injEq, Prod.mk.injEq] at h
                      have hlen : r2.length ≤ n := by
                        simp only [List.length_cons] at hl; omega
                      rw [ih r2 hlen s' r' t hp, ← h.1, ← h.2]
                  · rw [if_neg hc2] at h
                    exact absurd h (by simp)
            · rw [if_neg hb] at h ⊢
              rcases hp : parseStrBody r0 with _ | ⟨s', r'⟩
              · rw [hp] at h; exact absurd h (by simp)
              · rw [hp] at h
                simp only [Option.some.injEq, Prod.mk.injEq] at h
                have hlen : r0.length ≤ n := by
                  simp only [List.length_cons] at hl; omega
                rw [ih r0 hlen s' r' t hp, ← h.1, ← h.2]

theorem parseVal_succ (fuel : Nat) (l : List Char) :
    parseVal (fuel + 1) l =
      (match skipSp l with
       | 'n' :: 'u' :: 'l' :: 'l' :: r => some (.null, r)
       | 't' :: 'r' :: 'u' :: 'e' :: r => some (.bool true, r)
       | 'f' :: 'a' :: 'l' :: 's' :: 'e' :: r => some (.bool false, r)
       | '"' :: r =>
           match parseStrBody r with
           | some (cs, r') => some (.str (String.mk cs), r')
           | none => none
       | '[' :: r =>
           match skipSp r with
           | ']' :: r' => some (.arr .nil, r')
           | _ =>
               match parseItems fuel r with
               | some (xs, r') => some (.arr xs, r')
               | none => none
       | '\x7b' :: r =>
           match skipSp r with
           | '\x7d' :: r' => some (.obj .nil, r')
           | _ =>
               match parseFields fuel r with
               | some (fs, r') => some (.obj fs, r')
               | none => none
       | c :: r =>
           if c.isDigit then
             some (.num ((c :: r).takeWhile Char.isDigit), (c :: r).dropWhile Char.isDigit)
           else none
       | [] => none) := by
  rw [parseVal.eq_def]

theorem parseItems_succ (fuel : Nat) (l : List Char) :
    parseItems (fuel + 1) l =
      (match parseVal fuel l with
       | some (v, r) =>
           match skipSp r with
           | ',' :: r1 =>
               match parseItems fuel r1 with
               | some (xs, r') => some (.cons v xs, r')
               | none => none
           | ']' :: r1 => some (.cons v .nil, r1)
           | _ => none
       | none => none) := by
  rw [parseItems.eq_def]

theorem parseFields_succ (fuel : Nat) (l : List Char) :
    parseFields (fuel + 1) l =
      (match skipSp l with
       | '"' :: r =>
           match parseStrBody r with
           | some (k, r1) =>
               match skipSp r1 with
               | ':' :: r2 =>
                   match parseVal fuel r2 with
                   | some (v, r3) =>
                       match skipSp r3 with
                       | ',' :: r4 =>
                           match parseFields fuel r4 with
                           | some (fs, r') => some (.cons (String.mk k) v fs, r')
                           | none => none
                       | '\x7d' :: r4 => some (.cons (String.mk k) v .nil, r4)
                       | _ => none
                   | none => none
               | _ => none
           | none => none
       | _ => none) := by
  rw [parseFields.eq_def]

theorem parseVal_sp (fuel : Nat) (l : List Char) :
    parseVal fuel (' ' :: l) = parseVal fuel l := by
  cases fuel with
  | zero => rfl
  | succ n => rw [parseVal_succ, parseVal_succ, skipSp_cons_sp]

theorem parseItems_sp (fuel : Nat) (l : List Char) (h : 0 < fuel) :
    parseItems fuel (' ' :: l) = parseItems fuel l := by
  cases fuel with
  | zero => exact absurd h (by decide)
  | succ n => rw [parseItems_succ, parseItems_succ, parseVal_sp]

theorem parseFields_sp (fuel : Nat) (l : List Char) (h : 0 < fuel) :
    parseFields fuel (' ' :: l) = parseFields fuel l := by
  cases fuel with
  | zero => exact absurd h (by decide)
  | succ n => rw [parseFields_succ, parseFields_succ, skipSp_cons_sp]

theorem serialize_head (v : Json) (hwf : Json.WFb v = true) :
    ∃ c tl, Json.serialize v = c :: tl ∧ c ≠ ' ' ∧ c ≠ ']' := by
  cases v with
  | null => refine ⟨'n', _, rfl, ?_, ?_⟩ <;> decide
  | bool b =>
      cases b with
      | true => refine ⟨'t', _, rfl, ?_, ?_⟩ <;> decide
      | false => refine ⟨'f', _, rfl, ?_, ?_⟩ <;> decide
  | num d =>
      cases d with
      | nil => simp [Json.WFb] at hwf
      | cons c tl =>
          have hc : c.isDigit = true := by
            simp only [Json.WFb, List.all_cons, Bool.and_eq_true] at hwf
            exact hwf.2.1
          refine ⟨c, tl, rfl, ?_, ?_⟩
          · intro h; rw [h] at hc; exact absurd hc (by decide)
          · intro h; rw [h] at hc; exact absurd hc (by decide)
  | str s => refine ⟨'"', _, rfl, ?_, ?_⟩ <;> decide
  | arr l =>
      cases l with
      | nil => refine ⟨'[', _, rfl, ?_, ?_⟩ <;> decide
      | cons j t => refine ⟨'[', _, rfl, ?_, ?_⟩ <;> decide
  | obj f =>
      cases f with
      | nil => refine ⟨'\x7b', _, rfl, ?_, ?_⟩ <;> decide
      | cons k w t => refine ⟨'\x7b', _, rfl, ?_, ?_⟩ <;> decide

theorem parseStrBody_escBody (s : String) (rest : List Char) :
    parseStrBody (escBody s ++ '"' :: rest) = some (s.data, rest) :=
  parseStrBody_complete s.data rest

theorem parse_complete_aux : ∀ n : Nat,
    (∀ v : Json, sizeOf v ≤ n → ∀ fuel rest, Json.WFb v = true → goodRest rest = true →
        (Json.serialize v).length ≤ fuel →
        parseVal fuel (Json.serialize v ++ rest) = some (v, rest))
    ∧ (∀ l : JsonList, sizeOf l ≤ n → ∀ fuel rest, JsonList.WFb l = true → l ≠ JsonList.nil →
        (JsonList.serializeItems l).length < fuel →
        parseItems fuel (JsonList.serializeItems l ++ ']' :: rest) = some (l, rest))
    ∧ (∀ f : JsonFields, sizeOf f ≤ n → ∀ fuel rest, JsonFields.WFb f = true → f ≠ JsonFields.nil →
        (JsonFields.serializeMembers f).length < fuel →
        parseFields fuel (JsonFields.serializeMembers f ++ '\x7d' :: rest) = some (f, rest)) := by
  intro n
  induction n with
  | zero =>
      refine ⟨fun v hsz => ?_, fun l hsz => ?_, fun f hsz => ?_⟩
      · exfalso; cases v <;> simp at hsz
      · exfalso; cases l <;> simp at hsz
      · exfalso; cases f <;> simp at hsz
  | succ n ih =>
      obtain ⟨ihV, ihL, ihF⟩ := ih
      refine ⟨fun v hsz fuel rest hwf hgr hfl => ?_,
              fun l hsz fuel rest hwf hne hfl => ?_,
              fun f hsz fuel rest hwf hne hfl => ?_⟩
      · -- values
        cases fuel with
        | zero =>
            obtain ⟨c, tl, hser, -, -⟩ := serialize_head v hwf
            rw [hser] at hfl; simp at hfl
        | succ fl =>
          cases v with
          | null => rfl
          | bool b => cases b with | true => rfl | false => rfl
          | num d =>
              cases d with
              | nil => simp [Json.WFb] at hwf
              | cons c d' =>
                  have hdig : c.isDigit = true := by
                    simp only [Json.WFb, List.all_cons, Bool.and_eq_true] at hwf
                    exact hwf.2.1
                  have hall : (c :: d').all Char.isDigit = true := by
                    simp only [Json.WFb, Bool.and_eq_true] at hwf
                    exact hwf.2
                  rw [parseVal_succ]
                  have hsk : skipSp (Json.serialize (Json.num (c :: d')) ++ rest)
                      = c :: (d' ++ rest) := by
                    show skipSp ((c :: d') ++ rest) = c :: (d' ++ rest)
                    rw [List.cons_append]
                    exact skipSp_cons_ne c (d' ++ rest)
                      (fun h => absurd (h ▸ hdig) (by decide))
                  rw [hsk]
                  split <;> rename_i heq
                  all_goals try (obtain ⟨h1, h2⟩ := List.cons.inj heq;
                                 exact absurd (h1 ▸ hdig) (by decide))
                  · obtain ⟨h1, h2⟩ := List.cons.inj heq
                    subst h1; subst h2
                    rw [if_pos hdig, ← List.cons_append]
                    have hnc := numChunk (c :: d') rest hall hgr
                    rw [hnc.1, hnc.2]
                  · simp at heq
          | str s =>
              rw [parseVal_succ]
              have hsk : skipSp (Json.serialize (Json.str s) ++ rest)
                  = '"' :: (escBody s ++ '"' :: rest) := by
                show skipSp (('"' :: (escBody s ++ ['"'])) ++ rest) = _
                rw [List.cons_append, skipSp_cons_ne '"' _ (by decide)]
                simp [List.append_assoc]
              rw [hsk]
              show (match parseStrBody (escBody s ++ '"' :: rest) with
                    | some (cs, r') => some (Json.str (String.mk cs), r')
                    | none => none) = some (Json.str s, rest)
              rw [parseStrBody_escBody s rest]
          | arr l =>
              cases l with
              | nil => rfl
              | cons j t =>
                  rw [parseVal_succ]
                  simp only [Json.WFb, JsonList.WFb, Bool.and_eq_true] at hwf
                  obtain ⟨c, tl, hserj, hcsp, hcbr⟩ := serialize_head j hwf.1
                  have hsk : skipSp (Json.serialize (Json.arr (JsonList.cons j t)) ++ rest)
                      = '[' :: (JsonList.serializeItems (JsonList.cons j t) ++ ']' :: rest) := by
                    show skipSp (('[' :: (Json.serialize j ++ JsonList.serializeRest t ++ [']'])) ++ rest) = _
                    rw [List.cons_append, skipSp_cons_ne '[' _ (by decide)]
                    simp [JsonList.serializeItems, List.append_assoc]
                  rw [hsk]
                  show (match skipSp (JsonList.serializeItems (JsonList.cons j t) ++ ']' :: rest) with
                        | ']' :: r' => some (Json.arr JsonList.nil, r')
                        | _ =>
                            match parseItems fl (JsonList.serializeItems (JsonList.cons j t) ++ ']' :: rest) with
                            | some (xs, r') => some (Json.arr xs, r')
                            | none => none) = some (Json.arr (JsonList.cons j t), rest)
                  have hsk2 : skipSp (JsonList.serializeItems (JsonList.cons j t) ++ ']' :: rest)
                      = c :: (tl ++ JsonList.serializeRest t ++ ']' :: rest) := by
                    show skipSp ((Json.serialize j ++ JsonList.serializeRest t) ++ ']' :: rest) = _
                    rw [hserj]
                    simp only [List.cons_append, List.append_assoc]
                    rw [skipSp_cons_ne c _ hcsp]
                  rw [hsk2]
                  split <;> rename_i heq
                  · obtain ⟨h1, -⟩ := List.cons.inj heq
                    exact absurd h1 hcbr
                  · have hil : parseItems fl (JsonList.serializeItems (JsonList.cons j t) ++ ']' :: rest)
                        = some (JsonList.cons j t, rest) := by
                      refine ihL (JsonList.cons j t) ?_ fl rest ?_ (by simp) ?_
                      · simp at hsz ⊢; omega
                      · simp [JsonList.WFb, hwf.1, hwf.2]
                      · have : (Json.serialize (Json.arr (JsonList.cons j t))).length
                            = (JsonList.serializeItems (JsonList.cons j t)).length + 2 := by
                          simp [Json.serialize, JsonList.serializeItems]
                          omega
                        omega
                    rw [hil]
          | obj f =>
              cases f with
              | nil => rfl
              | cons k v t =>
                  rw [parseVal_succ]
                  simp only [Json.WFb, JsonFields.WFb, Bool.and_eq_true] at hwf
                  have hsk : skipSp (Json.serialize (Json.obj (JsonFields.cons k v t)) ++ rest)
                      = '\x7b' :: (JsonFields.serializeMembers (JsonFields.cons k v t) ++ '\x7d' :: rest) := by
                    show skipSp (('\x7b' :: (serStr k ++ ':' :: ' ' :: Json.serialize v ++ JsonFields.serializeRest t ++ ['\x7d'])) ++ rest) = _
                    rw [List.cons_append, skipSp_cons_ne '\x7b' _ (by decide)]
                    simp [JsonFields.serializeMembers, List.append_assoc]
                  rw [hsk]
                  show (match skipSp (JsonFields.serializeMembers (JsonFields.cons k v t) ++ '\x7d' :: rest) with
                        | '\x7d' :: r' => some (Json.obj JsonFields.nil, r')
                        | _ =>
                            match parseFields fl (JsonFields.serializeMembers (JsonFields.cons k v t) ++ '\x7d' :: rest) with
                            | some (fs, r') => some (Json.obj fs, r')
                            | none => none) = some (Json.obj (JsonFields.cons k v t), rest)
                  have hx2 : JsonFields.serializeMembers (JsonFields.cons k v t) ++ '\x7d' :: rest
                      = '"' :: (escBody k ++ '"' :: (':' :: ' ' :: (Json.serialize v ++ (JsonFields.serializeRest t ++ '\x7d' :: rest)))) := by
                    simp [JsonFields.serializeMembers, serStr, List.append_assoc]
                  have hsk2 : skipSp (JsonFields.serializeMembers (JsonFields.cons k v t) ++ '\x7d' :: rest)
                      = '"' :: (escBody k ++ '"' :: (':' :: ' ' :: (Json.serialize v ++ (JsonFields.serializeRest t ++ '\x7d' :: rest)))) := by
                    rw [hx2]
                    exact skipSp_cons_ne _ _ (by decide)
                  rw [hsk2]
                  split <;> rename_i heq
                  · obtain ⟨h1, -⟩ := List.cons.inj heq
                    exact absurd h1 (by decide)
                  · have hfl2 : parseFields fl (JsonFields.serializeMembers (JsonFields.cons k v t) ++ '\x7d' :: rest)
                        = some (JsonFields.cons k v t, rest) := by
                      refine ihF (JsonFields.cons k v t) ?_ fl rest ?_ (by simp) ?_
                      · simp at hsz ⊢; omega
                      · simp [JsonFields.WFb, hwf.1.1, hwf.1.2]
                      · have : (Json.serialize (Json.obj (JsonFields.cons k v t))).length
                            = (JsonFields.serializeMembers (JsonFields.cons k v t)).length + 2 := by
                          simp [Json.serialize, JsonFields.serializeMembers, serStr]
                          omega
                        omega
                    rw [hfl2]
      · -- items
        cases l with
        | nil => exact absurd rfl hne
        | cons j t =>
            cases fuel with
            | zero => exact absurd hfl (Nat.not_lt_zero _)
            | succ fl =>
                simp only [JsonList.WFb, Bool.and_eq_true] at hwf
                rw [parseItems_succ]
                have hjlen : (Json.serialize j).length ≤ fl := by
                  have : (JsonList.serializeItems (JsonList.cons j t)).length
                      = (Json.serialize j).length + (JsonList.serializeRest t).length := by
                    simp [JsonList.serializeItems]
                  omega
                have hgr2 : goodRest (JsonList.serializeRest t ++ ']' :: rest) = true := by
                  cases t <;> rfl
                have hv : parseVal fl (Json.serialize j ++ (JsonList.serializeRest t ++ ']' :: rest))
                    = some (j, JsonList.serializeRest t ++ ']' :: rest) := by
                  refine ihV j ?_ fl _ hwf.1 hgr2 hjlen
                  simp at hsz ⊢; omega
                have harr : JsonList.serializeItems (JsonList.cons j t) ++ ']' :: rest
                    = Json.serialize j ++ (JsonList.serializeRest t ++ ']' :: rest) := by
                  simp [JsonList.serializeItems, List.append_assoc]
                rw [harr, hv]
                cases t with
                | nil =>
                    show (match skipSp (']' :: rest) with
                          | ',' :: r1 =>
                              match parseItems fl r1 with
                              | some (xs, r') => some (JsonList.cons j xs, r')
                              | none => none
                          | ']' :: r1 => some (JsonList.cons j JsonList.nil, r1)
                          | _ => none) = some (JsonList.cons j JsonList.nil, rest)
                    rfl
                | cons j2 t2 =>
                    show (match skipSp (JsonList.serializeRest (JsonList.cons j2 t2) ++ ']' :: rest) with
                          | ',' :: r1 =>
                              match parseItems fl r1 with
                              | some (xs, r') => some (JsonList.cons j xs, r')
                              | none => none
                          | ']' :: r1 => some (JsonList.cons j JsonList.nil, r1)
                          | _ => none) = some (JsonList.cons j (JsonList.cons j2 t2), rest)
                    have hsk3 : skipSp (JsonList.serializeRest (JsonList.cons j2 t2) ++ ']' :: rest)
                        = ',' :: (' ' :: (JsonList.serializeItems (JsonList.cons j2 t2) ++ ']' :: rest)) := by
                      show skipSp ((',' :: ' ' :: (Json.serialize j2 ++ JsonList.serializeRest t2)) ++ ']' :: rest) = _
                      rw [List.cons_append, skipSp_cons_ne ',' _ (by decide)]
                      simp [JsonList.serializeItems, List.append_assoc]
                    rw [hsk3]
                    show (match parseItems fl (' ' :: (JsonList.serializeItems (JsonList.cons j2 t2) ++ ']' :: rest)) with
                          | some (xs, r') => some (JsonList.cons j xs, r')
                          | none => none) = some (JsonList.cons j (JsonList.cons j2 t2), rest)
                    obtain ⟨c2, tl2, hserj2, -, -⟩ := serialize_head j hwf.1
                    have hjpos : 0 < (Json.serialize j).length := by
                      rw [hserj2]; simp
                    have hlen2 : (JsonList.serializeItems (JsonList.cons j (JsonList.cons j2 t2))).length
                        = (Json.serialize j).length + 2
                          + (JsonList.serializeItems (JsonList.cons j2 t2)).length := by
                      simp [JsonList.serializeItems, JsonList.serializeRest]
                      omega
                    have hflpos : 0 < fl := by omega
                    rw [parseItems_sp fl _ hflpos]
                    have hrec : parseItems fl (JsonList.serializeItems (JsonList.cons j2 t2) ++ ']' :: rest)
                        = some (JsonList.cons j2 t2, rest) := by
                      refine ihL (JsonList.cons j2 t2) ?_ fl rest hwf.2 (by simp) ?_
                      · simp at hsz ⊢; omega
                      · omega
                    rw [hrec]
      · -- fields
        cases f with
        | nil => exact absurd rfl hne
        | cons k v t =>
            cases fuel with
            | zero => exact absurd hfl (Nat.not_lt_zero _)
            | succ fl =>
                simp only [JsonFields.WFb, Bool.and_eq_true] at hwf
                rw [parseFields_succ]
                have hx : JsonFields.serializeMembers (JsonFields.cons k v t) ++ '\x7d' :: rest
                    = '"' :: (escBody k ++ '"' :: (':' :: ' ' :: (Json.serialize v ++ (JsonFields.serializeRest t ++ '\x7d' :: rest)))) := by
                  simp [JsonFields.serializeMembers, serStr, List.append_assoc]
                have hsk : skipSp (JsonFields.serializeMembers (JsonFields.cons k v t) ++ '\x7d' :: rest)
                    = '"' :: (escBody k ++ '"' :: (':' :: ' ' :: (Json.serialize v ++ (JsonFields.serializeRest t ++ '\x7d' :: rest)))) := by
                  rw [hx]
                  exact skipSp_cons_ne _ _ (by decide)
                have hmlen : (JsonFields.serializeMembers (JsonFields.cons k v t)).length
                    = (escBody k).length + 4 + (Json.serialize v).length
                      + (JsonFields.serializeRest t).length := by
                  simp [JsonFields.serializeMembers, serStr]
                  omega
                have hflpos : 0 < fl := by omega
                rw [hsk]
                split
                next r heq =>
                  obtain ⟨-, h2⟩ := List.cons.inj heq
                  subst h2
                  rw [parseStrBody_escBody k _]
                  dsimp only
                  rw [skipSp_cons_ne ':' _ (by decide)]
                  split
                  next r2 heq2 =>
                    obtain ⟨-, h2⟩ := List.cons.inj heq2
                    subst h2
                    rw [parseVal_sp]
                    have hgr2 : goodRest (JsonFields.serializeRest t ++ '\x7d' :: rest) = true := by
                      cases t <;> rfl
                    have hv : parseVal fl (Json.serialize v ++ (JsonFields.serializeRest t ++ '\x7d' :: rest))
                        = some (v, JsonFields.serializeRest t ++ '\x7d' :: rest) := by
                      refine ihV v ?_ fl _ hwf.1 hgr2 (by omega)
                      simp at hsz ⊢; omega
                    rw [hv]
                    dsimp only
                    cases t with
                    | nil =>
                        simp only [JsonFields.serializeRest, List.nil_append]
                        rw [skipSp_cons_ne '\x7d' _ (by decide)]
                        split
                        next r4 heq3 =>
                          obtain ⟨h1, -⟩ := List.cons.inj heq3
                          exact absurd h1 (by decide)
                        next r4 heq3 =>
                          obtain ⟨-, h2⟩ := List.cons.inj heq3
                          subst h2
                          rfl
                        next h1 h2 => exact (h2 rest rfl).elim
                    | cons k2 v2 t2 =>
                        have hy : JsonFields.serializeRest (JsonFields.cons k2 v2 t2) ++ '\x7d' :: rest
                            = ',' :: (' ' :: (JsonFields.serializeMembers (JsonFields.cons k2 v2 t2) ++ '\x7d' :: rest)) := by
                          simp [JsonFields.serializeRest, JsonFields.serializeMembers, List.append_assoc]
                        rw [hy, skipSp_cons_ne ',' _ (by decide)]
                        have hrlen : (JsonFields.serializeRest (JsonFields.cons k2 v2 t2)).length
                            = (JsonFields.serializeMembers (JsonFields.cons k2 v2 t2)).length + 2 := by
                          simp [JsonFields.serializeRest, JsonFields.serializeMembers]
                        split
                        next r4 heq3 =>
                          obtain ⟨-, h2⟩ := List.cons.inj heq3
                          subst h2
                          rw [parseFields_sp fl _ hflpos]
                          have hrec : parseFields fl (JsonFields.serializeMembers (JsonFields.cons k2 v2 t2) ++ '\x7d' :: rest)
                              = some (JsonFields.cons k2 v2 t2, rest) := by
                            refine ihF (JsonFields.cons k2 v2 t2) ?_ fl rest hwf.2 (by simp) (by omega)
                            simp at hsz ⊢; omega
                          rw [hrec]
                        next r4 heq3 =>
                          obtain ⟨h1, -⟩ := List.cons.inj heq3
                          exact absurd h1 (by decide)
                        next h1 h2 => exact (h1 _ rfl).elim
                  next h => exact (h _ rfl).elim
                next h => exact (h _ rfl).elim

theorem parseVal_skipSp_nil (fuel : Nat) (l : List Char) (h : skipSp l = []) :
    parseVal fuel l = none := by
  cases fuel with
  | zero => rfl
  | succ fl => rw [parseVal_succ, h]

theorem parseItems_skipSp_nil (fuel : Nat) (l : List Char) (h : skipSp l = []) :
    parseItems fuel l = none := by
  cases fuel with
  | zero => rfl
  | succ fl => rw [parseItems_succ, parseVal_skipSp_nil fl l h]

theorem skipSp_ne_nil {l : List Char} {c : Char} {w : List Char}
    (h : skipSp l = c :: w) : skipSp l ≠ [] := by
  rw [h]; simp

theorem dropWhile_ne_nil_append (p : Char → Bool) :
    ∀ (L t : List Char), L.dropWhile p ≠ [] →
      (L ++ t).takeWhile p = L.takeWhile p ∧ (L ++ t).dropWhile p = L.dropWhile p ++ t := by
  intro L
  induction L with
  | nil => intro t h; exact absurd rfl h
  | cons c r ih =>
      intro t h
      by_cases hc : p c
      · rw [List.dropWhile_cons_of_pos hc] at h
        have := ih t h
        simp only [List.cons_append, List.takeWhile_cons_of_pos hc,
                   List.dropWhile_cons_of_pos hc, this.1, this.2]
        exact ⟨trivial, trivial⟩
      · have hc' : p c = false := by simpa using hc
        simp only [List.cons_append, List.takeWhile_cons, List.dropWhile_cons, hc']
        exact ⟨rfl, rfl⟩

theorem parseFields_skipSp_nil (fuel : Nat) (l : List Char) (h : skipSp l = []) :
    parseFields fuel l = none := by
  cases fuel with
  | zero => rfl
  | succ fl => rw [parseFields_succ, h]

theorem parse_mono : ∀ fuel : Nat,
    (∀ l v r, parseVal fuel l = some (v, r) → (r ≠ [] ∨ v.isNum = false) →
       ∀ t, parseVal fuel (l ++ t) = some (v, r ++ t))
    ∧ (∀ l xs r, parseItems fuel l = some (xs, r) →
       ∀ t, parseItems fuel (l ++ t) = some (xs, r ++ t))
    ∧ (∀ l fs r, parseFields fuel l = some (fs, r) →
       ∀ t, parseFields fuel (l ++ t) = some (fs, r ++ t)) := by
  intro fuel
  induction fuel with
  | zero =>
      refine ⟨fun l v r h => ?_, fun l xs r h => ?_, fun l fs r h => ?_⟩
      · exact absurd h (by rw [show parseVal 0 l = none from rfl]; simp)
      · exact absurd h (by rw [show parseItems 0 l = none from rfl]; simp)
      · exact absurd h (by rw [show parseFields 0 l = none from rfl]; simp)
  | succ fuel ih =>
      obtain ⟨ihV, ihI, ihFl⟩ := ih
      refine ⟨fun l v r h hside t => ?_, fun l xs r h t => ?_, fun l fs r h t => ?_⟩
      · -- parseVal
        rw [parseVal_succ] at h
        rw [parseVal_succ]
        split at h <;> rename_i heq
        all_goals try
          (simp only [Option.some.injEq, Prod.mk.injEq] at h
           obtain ⟨hv, hr⟩ := h
           subst hv; subst hr
           rw [skipSp_append l t (skipSp_ne_nil heq), heq]
           rfl)
        · -- string branch
          rename_i x0 r0
          split at h <;> rename_i heq2
          · rename_i cs r'
            simp only [Option.some.injEq, Prod.mk.injEq] at h
            obtain ⟨hv, hr⟩ := h
            subst hv; subst hr
            rw [skipSp_append l t (skipSp_ne_nil heq), heq]
            show (match parseStrBody (r0 ++ t) with
                  | some (cs, r') => some (Json.str (String.mk cs), r')
                  | none => none) = some (Json.str (String.mk cs), r' ++ t)
            rw [parseStrBody_mono r0.length r0 (le_refl _) cs r' t heq2]
          · exact Option.noConfusion h
        · -- array branch
          rename_i x0 r0
          split at h <;> rename_i heq2
          · rename_i r1
            simp only [Option.some.injEq, Prod.mk.injEq] at h
            obtain ⟨hv, hr⟩ := h
            subst hv; subst hr
            rw [skipSp_append l t (skipSp_ne_nil heq), heq]
            show (match skipSp (r0 ++ t) with
                  | ']' :: r' => some (Json.arr JsonList.nil, r')
                  | _ =>
                      match parseItems fuel (r0 ++ t) with
                      | some (xs, r') => some (Json.arr xs, r')
                      | none => none) = some (Json.arr JsonList.nil, r1 ++ t)
            rw [skipSp_append r0 t (skipSp_ne_nil heq2), heq2]
            rfl
          · split at h <;> rename_i heq3
            · rename_i xs0 r'
              simp only [Option.some.injEq, Prod.mk.injEq] at h
              obtain ⟨hv, hr⟩ := h
              subst hv; subst hr
              rw [skipSp_append l t (skipSp_ne_nil heq), heq]
              show (match skipSp (r0 ++ t) with
                    | ']' :: r' => some (Json.arr JsonList.nil, r')
                    | _ =>
                        match parseItems fuel (r0 ++ t) with
                        | some (xs, r') => some (Json.arr xs, r')
                        | none => none) = some (Json.arr xs0, r' ++ t)
              have hr0 : skipSp r0 ≠ [] := by
                intro hh
                have hnone := parseItems_skipSp_nil fuel r0 hh
                rw [heq3] at hnone
                exact Option.noConfusion hnone
              rw [skipSp_append r0 t hr0]
              rcases hsk0 : skipSp r0 with _ | ⟨c0, w0⟩
              · exact absurd hsk0 hr0
              · have hc0 : ¬(c0 = ']') := by
                  intro hh
                  exact heq2 w0 (by rw [hsk0, hh])
                rw [List.cons_append]
                split <;> rename_i heq4
                · obtain ⟨h1, -⟩ := List.cons.inj heq4
                  exact absurd h1 hc0
                · rw [ihI r0 xs0 r' heq3 t]
            · exact Option.noConfusion h
        · -- object branch
          rename_i x0 r0
          split at h <;> rename_i heq2
          · rename_i r1
            simp only [Option.some.injEq, Prod.mk.injEq] at h
            obtain ⟨hv, hr⟩ := h
            subst hv; subst hr
            rw [skipSp_append l t (skipSp_ne_nil heq), heq]
            show (match skipSp (r0 ++ t) with
                  | '\x7d' :: r' => some (Json.obj JsonFields.nil, r')
                  | _ =>
                      match parseFields fuel (r0 ++ t) with
                      | some (fs, r') => some (Json.obj fs, r')
                      | none => none) = some (Json.obj JsonFields.nil, r1 ++ t)
            rw [skipSp_append r0 t (skipSp_ne_nil heq2), heq2]
            rfl
          · split at h <;> rename_i heq3
            · rename_i fs0 r'
              simp only [Option.some.injEq, Prod.mk.injEq] at h
              obtain ⟨hv, hr⟩ := h
              subst hv; subst hr
              rw [skipSp_append l t (skipSp_ne_nil heq), heq]
              show (match skipSp (r0 ++ t) with
                    | '\x7d' :: r' => some (Json.obj JsonFields.nil, r')
                    | _ =>
                        match parseFields fuel (r0 ++ t) with
                        | some (fs, r') => some (Json.obj fs, r')
                        | none => none) = some (Json.obj fs0, r' ++ t)
              have hr0 : skipSp r0 ≠ [] := by
                intro hh
                have hnone := parseFields_skipSp_nil fuel r0 hh
                rw [heq3] at hnone
                exact Option.noConfusion hnone
              rw [skipSp_append r0 t hr0]
              rcases hsk0 : skipSp r0 with _ | ⟨c0, w0⟩
              · exact absurd hsk0 hr0
              · have hc0 : ¬(c0 = '\x7d') := by
                  intro hh
                  exact heq2 w0 (by rw [hsk0, hh])
                rw [List.cons_append]
                split <;> rename_i heq4
                · obtain ⟨h1, -⟩ := List.cons.inj heq4
                  exact absurd h1 hc0
                · rw [ihFl r0 fs0 r' heq3 t]
            · exact Option.noConfusion h
        · -- digit branch
          rename_i c0 r0 n1 n2 n3 n4 n5 n6
          by_cases hdg : c0.isDigit = true
          · rw [if_pos hdg] at h
            simp only [Option.some.injEq, Prod.mk.injEq] at h
            obtain ⟨hv, hr⟩ := h
            subst hv; subst hr
            rcases hside with hr' | hnum
            · rw [skipSp_append l t (skipSp_ne_nil heq), heq, List.cons_append]
              split <;> rename_i heq4
              all_goals try
                (obtain ⟨h1, -⟩ := List.cons.inj heq4
                 exact absurd (h1 ▸ hdg) (by decide))
              · obtain ⟨h1, h2⟩ := List.cons.inj heq4
                rw [← h1, ← h2, if_pos hdg, ← List.cons_append]
                have hdw := dropWhile_ne_nil_append Char.isDigit (c0 :: r0) t hr'
                rw [hdw.1, hdw.2]
              · exact List.noConfusion heq4
            · simp [Json.isNum] at hnum
          · rw [if_neg hdg] at h
            exact Option.noConfusion h
        · -- empty branch
          exact Option.noConfusion h
      · -- parseItems
        rw [parseItems_succ] at h
        rw [parseItems_succ]
        split at h <;> rename_i heq
        · rename_i x0 v0 r0
          split at h <;> rename_i heq2
          · -- comma arm
            rename_i x1 r1
            split at h <;> rename_i heq3
            · rename_i xs0 r'
              simp only [Option.some.injEq, Prod.mk.injEq] at h
              obtain ⟨hv, hr⟩ := h
              subst hv; subst hr
              have hr0ne : r0 ≠ [] := by
                intro hh; rw [hh] at heq2; simp [skipSp] at heq2
              rw [ihV l v0 r0 heq (Or.inl hr0ne) t]
              show (match skipSp (r0 ++ t) with
                    | ',' :: r1 =>
                        match parseItems fuel r1 with
                        | some (xs, r') => some (JsonList.cons v0 xs, r')
                        | none => none
                    | ']' :: r1 => some (JsonList.cons v0 JsonList.nil, r1)
                    | _ => none) = some (JsonList.cons v0 xs0, r' ++ t)
              rw [skipSp_append r0 t (skipSp_ne_nil heq2), heq2]
              show (match parseItems fuel (r1 ++ t) with
                    | some (xs, r') => some (JsonList.cons v0 xs, r')
                    | none => none) = some (JsonList.cons v0 xs0, r' ++ t)
              rw [ihI r1 xs0 r' heq3 t]
            · exact Option.noConfusion h
          · -- bracket arm
            rename_i x1 r1
            simp only [Option.some.injEq, Prod.mk.injEq] at h
            obtain ⟨hv, hr⟩ := h
            subst hv; subst hr
            have hr0ne : r0 ≠ [] := by
              intro hh; rw [hh] at heq2; simp [skipSp] at heq2
            rw [ihV l v0 r0 heq (Or.inl hr0ne) t]
            show (match skipSp (r0 ++ t) with
                  | ',' :: r1 =>
                      match parseItems fuel r1 with
                      | some (xs, r') => some (JsonList.cons v0 xs, r')
                      | none => none
                  | ']' :: r1 => some (JsonList.cons v0 JsonList.nil, r1)
                  | _ => none) = some (JsonList.cons v0 JsonList.nil, r1 ++ t)
            rw [skipSp_append r0 t (skipSp_ne_nil heq2), heq2]
            rfl
          · exact Option.noConfusion h
        · exact Option.noConfusion h
      · -- parseFields
        rw [parseFields_succ] at h
        rw [parseFields_succ]
        split at h <;> rename_i heq
        · rename_i x0 r0
          split at h <;> rename_i heq2
          · rename_i k0 r1
            split at h <;> rename_i heq3
            · rename_i x1 r2
              split at h <;> rename_i heq4
              · rename_i v0 r3
                split at h <;> rename_i heq5
                · -- comma arm
                  rename_i x2 r4
                  split at h <;> rename_i heq6
                  · rename_i fs0 r'
                    simp only [Option.some.injEq, Prod.mk.injEq] at h
                    obtain ⟨hv, hr⟩ := h
                    subst hv; subst hr
                    have hr3ne : r3 ≠ [] := by
                      intro hh; rw [hh] at heq5; simp [skipSp] at heq5
                    rw [skipSp_append l t (skipSp_ne_nil heq), heq]
                    show (match parseStrBody (r0 ++ t) with
                          | some (k, r1) =>
                              match skipSp r1 with
                              | ':' :: r2 =>
                                  match parseVal fuel r2 with
                                  | some (v, r3) =>
                                      match skipSp r3 with
                                      | ',' :: r4 =>
                                          match parseFields fuel r4 with
                                          | some (fs, r') => some (JsonFields.cons (String.mk k) v fs, r')
                                          | none => none
                                      | '\x7d' :: r4 => some (JsonFields.cons (String.mk k) v JsonFields.nil, r4)
                                      | _ => none
                                  | none => none
                              | _ => none
                          | none => none)
                        = some (JsonFields.cons (String.mk k0) v0 fs0, r' ++ t)
                    rw [parseStrBody_mono r0.length r0 (le_refl _) k0 r1 t heq2]
                    show (match skipSp (r1 ++ t) with
                          | ':' :: r2 =>
                              match parseVal fuel r2 with
                              | some (v, r3) =>
                                  match skipSp r3 with
                                  | ',' :: r4 =>
                                      match parseFields fuel r4 with
                                      | some (fs, r') => some (JsonFields.cons (String.mk k0) v fs, r')
                                      | none => none
                                  | '\x7d' :: r4 => some (JsonFields.cons (String.mk k0) v JsonFields.nil, r4)
                                  | _ => none
                              | none => none
                          | _ => none)
                        = some (JsonFields.cons (String.mk k0) v0 fs0, r' ++ t)
                    rw [skipSp_append r1 t (skipSp_ne_nil heq3), heq3]
                    show (match parseVal fuel (r2 ++ t) with
                          | some (v, r3) =>
                              match skipSp r3 with
                              | ',' :: r4 =>
                                  match parseFields fuel r4 with
                                  | some (fs, r') => some (JsonFields.cons (String.mk k0) v fs, r')
                                  | none => none
                              | '\x7d' :: r4 => some (JsonFields.cons (String.mk k0) v JsonFields.nil, r4)
                              | _ => none
                          | none => none)
                        = some (JsonFields.cons (String.mk k0) v0 fs0, r' ++ t)
                    rw [ihV r2 v0 r3 heq4 (Or.inl hr3ne) t]
                    show (match skipSp (r3 ++ t) with
                          | ',' :: r4 =>
                              match parseFields fuel r4 with
                              | some (fs, r') => some (JsonFields.cons (String.mk k0) v0 fs, r')
                              | none => none
                          | '\x7d' :: r4 => some (JsonFields.cons (String.mk k0) v0 JsonFields.nil, r4)
                          | _ => none)
                        = some (JsonFields.cons (String.mk k0) v0 fs0, r' ++ t)
                    rw [skipSp_append r3 t (skipSp_ne_nil heq5), heq5]
                    show (match parseFields fuel (r4 ++ t) with
                          | some (fs, r') => some (JsonFields.cons (String.mk k0) v0 fs, r')
                          | none => none)
                        = some (JsonFields.cons (String.mk k0) v0 fs0, r' ++ t)
                    rw [ihFl r4 fs0 r' heq6 t]
                  · exact Option.noConfusion h
                · -- closing-brace arm
                  rename_i x2 r4
                  simp only [Option.some.injEq, Prod.mk.injEq] at h
                  obtain ⟨hv, hr⟩ := h
                  subst hv; subst hr
                  have hr3ne : r3 ≠ [] := by
                    intro hh; rw [hh] at heq5; simp [skipSp] at heq5
                  rw [skipSp_append l t (skipSp_ne_nil heq), heq]
                  show (match parseStrBody (r0 ++ t) with
                        | some (k, r1) =>
                            match skipSp r1 with
                            | ':' :: r2 =>
                                match parseVal fuel r2 with
                                | some (v, r3) =>
                                    match skipSp r3 with
                                    | ',' :: r4 =>
                                        match parseFields fuel r4 with
                                        | some (fs, r') => some (JsonFields.cons (String.mk k) v fs, r')
                                        | none => none
                                    | '\x7d' :: r4 => some (JsonFields.cons (String.mk k) v JsonFields.nil, r4)
                                    | _ => none
                                | none => none
                            | _ => none
                        | none => none)
                      = some (JsonFields.cons (String.mk k0) v0 JsonFields.nil, r4 ++ t)
                  rw [parseStrBody_mono r0.length r0 (le_refl _) k0 r1 t heq2]
                  show (match skipSp (r1 ++ t) with
                        | ':' :: r2 =>
                            match parseVal fuel r2 with
                            | some (v, r3) =>
                                match skipSp r3 with
                                | ',' :: r4 =>
                                    match parseFields fuel r4 with
                                    | some (fs, r') => some (JsonFields.cons (String.mk k0) v fs, r')
                                    | none => none
                                | '\x7d' :: r4 => some (JsonFields.cons (String.mk k0) v JsonFields.nil, r4)
                                | _ => none
                            | none => none
                        | _ => none)
                      = some (JsonFields.cons (String.mk k0) v0 JsonFields.nil, r4 ++ t)
                  rw [skipSp_append r1 t (skipSp_ne_nil heq3), heq3]
                  show (match parseVal fuel (r2 ++ t) with
                        | some (v, r3) =>
                            match skipSp r3 with
                            | ',' :: r4 =>
                                match parseFields fuel r4 with
                                | some (fs, r') => some (JsonFields.cons (String.mk k0) v fs, r')
                                | none => none
                            | '\x7d' :: r4 => some (JsonFields.cons (String.mk k0) v JsonFields.nil, r4)
                            | _ => none
                        | none => none)
                      = some (JsonFields.cons (String.mk k0) v0 JsonFields.nil, r4 ++ t)
                  rw [ihV r2 v0 r3 heq4 (Or.inl hr3ne) t]
                  show (match skipSp (r3 ++ t) with
                        | ',' :: r4 =>
                            match parseFields fuel r4 with
                            | some (fs, r') => some (JsonFields.cons (String.mk k0) v0 fs, r')
                            | none => none
                        | '\x7d' :: r4 => some (JsonFields.cons (String.mk k0) v0 JsonFields.nil, r4)
                        | _ => none)
                      = some (JsonFields.cons (String.mk k0) v0 JsonFields.nil, r4 ++ t)
                  rw [skipSp_append r3 t (skipSp_ne_nil heq5), heq5]
                  rfl
                · exact Option.noConfusion h
              · exact Option.noConfusion h
            · exact Option.noConfusion h
          · exact Option.noConfusion h
        · exact Option.noConfusion h

theorem parse_fuel_mono : ∀ fuel : Nat,
    (∀ l x, parseVal fuel l = some x → parseVal (fuel + 1) l = some x)
    ∧ (∀ l x, parseItems fuel l = some x → parseItems (fuel + 1) l = some x)
    ∧ (∀ l x, parseFields fuel l = some x → parseFields (fuel + 1) l = some x) := by
  intro fuel
  induction fuel with
  | zero =>
      refine ⟨fun l x h => ?_, fun l x h => ?_, fun l x h => ?_⟩
      · exact absurd h (by rw [show parseVal 0 l = none from rfl]; simp)
      · exact absurd h (by rw [show parseItems 0 l = none from rfl]; simp)
      · exact absurd h (by rw [show parseFields 0 l = none from rfl]; simp)
  | succ fuel ih =>
      obtain ⟨ihV, ihI, ihFl⟩ := ih
      refine ⟨fun l x h => ?_, fun l x h => ?_, fun l x h => ?_⟩
      · rw [parseVal_succ] at h
        rw [parseVal_succ]
        split at h <;> rename_i heq
        all_goals try (exact h)
        · -- array branch
          rename_i x0 r0
          split at h <;> rename_i heq2
          · exact h
          · split at h <;> rename_i heq3
            · rename_i xs0 r'
              rw [ihI r0 (xs0, r') heq3]
              exact h
            · exact Option.noConfusion h
        · -- object branch
          rename_i x0 r0
          split at h <;> rename_i heq2
          · exact h
          · split at h <;> rename_i heq3
            · rename_i fs0 r'
              rw [ihFl r0 (fs0, r') heq3]
              exact h
            · exact Option.noConfusion h
      · rw [parseItems_succ] at h
        rw [parseItems_succ]
        split at h <;> rename_i heq
        · rename_i x0 v0 r0
          rw [ihV l (v0, r0) heq]
          show (match skipSp r0 with
                | ',' :: r1 =>
                    match parseItems (fuel + 1) r1 with
                    | some (xs, r') => some (JsonList.cons v0 xs, r')
                    | none => none
                | ']' :: r1 => some (JsonList.cons v0 JsonList.nil, r1)
                | _ => none) = some x
          split at h <;> rename_i heq2
          · rename_i x1 r1
            split at h <;> rename_i heq3
            · rename_i xs0 r'
              rw [ihI r1 (xs0, r') heq3]
              exact h
            · exact Option.noConfusion h
          · rename_i x1 r1
            exact h
          · exact Option.noConfusion h
        · exact Option.noConfusion h
      · rw [parseFields_succ] at h
        rw [parseFields_succ]
        split at h <;> rename_i heq
        · rename_i x0 r0
          split at h <;> rename_i heq2
          · rename_i k0 r1
            split at h <;> rename_i heq3
            · rename_i x1 r2
              split at h <;> rename_i heq4
              · rename_i v0 r3
                rw [ihV r2 (v0, r3) heq4]
                show (match skipSp r3 with
                      | ',' :: r4 =>
                          match parseFields (fuel + 1) r4 with
                          | some (fs, r') => some (JsonFields.cons (String.mk k0) v0 fs, r')
                          | none => none
                      | '\x7d' :: r4 => some (JsonFields.cons (String.mk k0) v0 JsonFields.nil, r4)
                      | _ => none) = some x
                split at h <;> rename_i heq5
                · rename_i x2 r4
                  split at h <;> rename_i heq6
                  · rename_i fs0 r'
                    rw [ihFl r4 (fs0, r') heq6]
                    exact h
                  · exact Option.noConfusion h
                · rename_i x2 r4
                  exact h
                · exact Option.noConfusion h
              · exact Option.noConfusion h
            · exact Option.noConfusion h
          · exact Option.noConfusion h
        · exact Option.noConfusion h

theorem parseVal_fuel_le {fuel fuel' : Nat} (hle : fuel ≤ fuel') (l : List Char)
    (x : Json × List Char) (h : parseVal fuel l = some x) : parseVal fuel' l = some x := by
  induction hle with
  | refl => exact h
  | step hm ih => exact (parse_fuel_mono _).1 l x ih

theorem parseVal_obj_num (fuel : Nat) (l : List Char) (v : Json) (r r0 : List Char)
    (h : parseVal fuel l = some (v, r)) (hsk : skipSp l = '\x7b' :: r0) :
    v.isNum = false := by
  cases fuel with
  | zero => exact Option.noConfusion h
  | succ fl =>
      rw [parseVal_succ, hsk] at h
      split at h <;> rename_i heq
      all_goals try (obtain ⟨h1, -⟩ := List.cons.inj heq; exact absurd h1 (by decide))
      · -- object branch
        split at h <;> rename_i heq2
        · simp only [Option.some.injEq, Prod.mk.injEq] at h
          rw [← h.1]
          rfl
        · split at h <;> rename_i heq3
          · simp only [Option.some.injEq, Prod.mk.injEq] at h
            rw [← h.1]
            rfl
          · exact Option.noConfusion h
      · -- digit catch-all branch
        rename_i c0 r1 n1 n2 n3 n4 n5 n6
        obtain ⟨h1, -⟩ := List.cons.inj heq
        subst h1
        rw [if_neg (by decide)] at h
        exact Option.noConfusion h
      · -- empty branch
        exact List.noConfusion heq

theorem jsonLoads_serialize (v : Json) (hwf : Json.WFb v = true) :
    jsonLoads (Json.serialize v) = some v := by
  have hc := (parse_complete_aux (sizeOf v)).1 v (le_refl _)
    ((Json.serialize v).length + 1) [] hwf rfl (by omega)
  rw [List.append_nil] at hc
  unfold jsonLoads
  rw [hc]
  rfl

theorem serialize_obj_head (f : JsonFields) :
    ∃ tl, Json.serialize (Json.obj f) = '\x7b' :: tl := by
  cases f with
  | nil => exact ⟨_, rfl⟩
  | cons k v t => exact ⟨_, rfl⟩

theorem jsonLoads_incomplete (f : JsonFields) (p q : List Char)
    (hwf : Json.WFb (Json.obj f) = true)
    (hsplit : Json.serialize (Json.obj f) = p ++ q) (hq : q ≠ []) :
    jsonLoads p = none := by
  cases p with
  | nil => rfl
  | cons c p' =>
      obtain ⟨tlx, hser⟩ := serialize_obj_head f
      have hsplit2 := hsplit
      rw [hser, List.cons_append] at hsplit2
      obtain ⟨h1, h2⟩ := List.cons.inj hsplit2
      subst h1
      rcases hjl : jsonLoads ('\x7b' :: p') with _ | v0
      · rfl
      · exfalso
        unfold jsonLoads at hjl
        split at hjl <;> rename_i heq
        · rename_i v1 r1
          by_cases hsk1 : skipSp r1 = []
          · have hnum : v1.isNum = false :=
              parseVal_obj_num _ _ _ _ p' heq (skipSp_cons_ne '\x7b' p' (by decide))
            have hext := (parse_mono _).1 _ v1 r1 heq (Or.inr hnum) q
            have hlen : ('\x7b' :: p').length + 1 ≤ (Json.serialize (Json.obj f)).length + 1 := by
              rw [hsplit]
              simp
            have hext2 := parseVal_fuel_le hlen _ _ hext
            rw [← hsplit] at hext2
            have hcomp := (parse_complete_aux (sizeOf (Json.obj f))).1 (Json.obj f) (le_refl _)
              ((Json.serialize (Json.obj f)).length + 1) [] hwf rfl (by omega)
            rw [List.append_nil] at hcomp
            rw [hcomp] at hext2
            simp only [Option.some.injEq, Prod.mk.injEq] at hext2
            have hq2 := hext2.2
            have := List.append_eq_nil.mp hq2.symm
            exact hq this.2
          · rw [if_neg hsk1] at hjl
            exact Option.noConfusion hjl
        · exact Option.noConfusion hjl

theorem fwdStep_start (cid name : String) (st0 : FwdState) (input : Json) :
    fwdStep cid st0 (.contentBlockStart (.toolUse name input))
      = (match summarizeToolInput name input with
         | none => none
         | some summary =>
             if summary.truthy then
               some ([.toolStart name summary cid], toolWaitSt st0 name [] true)
             else some ([], toolWaitSt st0 name [] false)) := rfl

theorem fwdStep_delta (cid name : String) (base : FwdState) (buf c : List Char) (sent : Bool)
    (hname : ¬(name = "")) :
    fwdStep cid (toolWaitSt base name buf sent) (.contentBlockDelta (.inputJsonDelta c))
      = (if !sent && decide ((buf ++ c).length > 5) then
           match jsonLoads (buf ++ c) with
           | some input =>
               match summarizeToolInput name input with
               | none => none
               | some summary =>
                   if summary.truthy then
                     some ([.toolStart name summary cid], toolWaitSt base name (buf ++ c) true)
                   else some ([], toolWaitSt base name (buf ++ c) sent)
           | none => some ([], toolWaitSt base name (buf ++ c) sent)
         else some ([], toolWaitSt base name (buf ++ c) sent)) := by
  have h0 : fwdStep cid (toolWaitSt base name buf sent) (.contentBlockDelta (.inputJsonDelta c))
      = (if name ≠ "" then
           (if !sent && decide ((buf ++ c).length > 5) then
              match jsonLoads (buf ++ c) with
              | some input =>
                  match summarizeToolInput name input with
                  | none => none
                  | some summary =>
                      if summary.truthy then
                        some ([.toolStart name summary cid], toolWaitSt base name (buf ++ c) true)
                      else some ([], toolWaitSt base name (buf ++ c) sent)
              | none => some ([], toolWaitSt base name (buf ++ c) sent)
            else some ([], toolWaitSt base name (buf ++ c) sent))
         else some ([], toolWaitSt base name buf sent)) := rfl
  rw [h0, if_pos hname]

theorem fwdStep_stop_eq (cid name : String) (base : FwdState) (buf : List Char) (sent : Bool) :
    fwdStep cid (toolWaitSt base name buf sent) .contentBlockStop
      = (match (if sent then some []
                else match
                  (if buf = [] then some (Json.str "")
                   else match jsonLoads buf with
                        | some d => summarizeToolInput name d
                        | none => some (Json.str (String.mk (buf.take 80)))) with
                | none => none
                | some summary => some [ClientEvent.toolStart name summary cid]) with
         | none => none
         | some startEvs =>
             match (if screenshotTools.contains name then
                      match extractScreenshotPath buf with
                      | none => none
                      | some none => some (([] : List ClientEvent), toolWaitSt base name buf sent)
                      | some (some p) =>
                          some ([ClientEvent.image (resolvePath base.cwd p) cid],
                                { toolWaitSt base name buf sent with
                                    imagePaths := base.imagePaths ++ [resolvePath base.cwd p] })
                    else some (([] : List ClientEvent), toolWaitSt base name buf sent)) with
             | none => none
             | some (imgEvs, st1) =>
                 some (startEvs ++ imgEvs ++ [ClientEvent.toolDone cid],
                       { st1 with activeToolName := none, toolInputJson := [], toolStartSent := false })) := rfl

theorem fwdRun_append (cid : String) : ∀ (l1 l2 : List StreamEvent) (st : FwdState),
    fwdRun cid st (l1 ++ l2)
      = (match fwdRun cid st l1 with
         | none => none
         | some (evs1, st1) =>
             match fwdRun cid st1 l2 with
             | none => none
             | some (evs2, st2) => some (evs1 ++ evs2, st2)) := by
  intro l1
  induction l1 with
  | nil =>
      intro l2 st
      rcases h : fwdRun cid st l2 with _ | ⟨evs2, st2⟩ <;> simp [fwdRun, h]
  | cons e rest ih =>
      intro l2 st
      simp only [List.cons_append, fwdRun]
      rcases hs : fwdStep cid st e with _ | ⟨evs, st'⟩
      · rfl
      · dsimp only
        rw [show rest.append l2 = rest ++ l2 from rfl, ih l2 st']
        rcases h1 : fwdRun cid st' rest with _ | ⟨evs1, st1⟩
        · rfl
        · dsimp only
          rcases h2 : fwdRun cid st1 l2 with _ | ⟨evs2, st2⟩
          · rfl
          · dsimp only
            rw [List.append_assoc]

theorem deltaChunks_pad (cid name : String) (base : FwdState) (full : List Char) (sent : Bool)
    (hname : ¬(name = ""))
    (hre : sent = false →
      ∃ d s0, jsonLoads full = some d ∧ summarizeToolInput name d = some s0 ∧ s0.truthy = false) :
    ∀ chunks, joinChunks chunks = [] →
      fwdRun cid (toolWaitSt base name full sent)
        (chunks.map (fun c => StreamEvent.contentBlockDelta (Delta.inputJsonDelta c)))
        = some ([], toolWaitSt base name full sent) := by
  intro chunks
  induction chunks with
  | nil => intro h; rfl
  | cons c rest ih =>
      intro hj
      simp only [joinChunks, List.append_eq_nil] at hj
      obtain ⟨hc1, hc2⟩ := hj
      subst hc1
      have hstep : fwdStep cid (toolWaitSt base name full sent)
          (.contentBlockDelta (.inputJsonDelta [])) = some ([], toolWaitSt base name full sent) := by
        rw [fwdStep_delta cid name base full [] sent hname, List.append_nil]
        cases sent with
        | true => rfl
        | false =>
            obtain ⟨d, s0, hd, hs0, htr⟩ := hre rfl
            by_cases hlen : 5 < full.length
            · have hguard : (!false && decide (full.length > 5)) = true := by
                simp [hlen]
              rw [hguard, if_pos rfl, hd]
              dsimp only
              rw [hs0]
              dsimp only
              rw [htr]
              rfl
            · have hguard : (!false && decide (full.length > 5)) = false := by
                simp [hlen]
              rw [hguard]
              rfl
      simp only [List.map_cons, fwdRun]
      rw [hstep]
      dsimp only
      rw [ih hc2]
      rfl

theorem deltaChunks_run (cid name : String) (f : JsonFields) (s : Json)
    (hname : ¬(name = ""))
    (hwf : Json.WFb (Json.obj f) = true)
    (hsum : summarizeToolInput name (Json.obj f) = some s) :
    ∀ (chunks : List (List Char)) (buf : List Char) (base : FwdState),
      buf ++ joinChunks chunks = Json.serialize (Json.obj f) →
      ∃ evs sent,
        fwdRun cid (toolWaitSt base name buf false)
            (chunks.map (fun c => StreamEvent.contentBlockDelta (Delta.inputJsonDelta c)))
          = some (evs, toolWaitSt base name (Json.serialize (Json.obj f)) sent)
        ∧ ((sent = true ∧ evs = [ClientEvent.toolStart name s cid] ∧ s.truthy = true)
           ∨ (sent = false ∧ evs = [])) := by
  intro chunks
  induction chunks with
  | nil =>
      intro buf base hbuf
      rw [joinChunks, List.append_nil] at hbuf
      subst hbuf
      exact ⟨[], false, rfl, Or.inr ⟨rfl, rfl⟩⟩
  | cons c rest ih =>
      intro buf base hbuf
      rw [joinChunks] at hbuf
      have hbuf2 : (buf ++ c) ++ joinChunks rest = Json.serialize (Json.obj f) := by
        rw [List.append_assoc]
        exact hbuf
      by_cases hguard : (!false && decide ((buf ++ c).length > 5)) = true
      · by_cases hrest : joinChunks rest = []
        · -- the buffer is complete
          have hfull : buf ++ c = Json.serialize (Json.obj f) := by
            rw [hrest, List.append_nil] at hbuf2
            exact hbuf2
          have hjl : jsonLoads (buf ++ c) = some (Json.obj f) := by
            rw [hfull]
            exact jsonLoads_serialize _ hwf
          by_cases htr : s.truthy = true
          · -- the summary becomes truthy: emit now, then pad
            have hstep : fwdStep cid (toolWaitSt base name buf false)
                (.contentBlockDelta (.inputJsonDelta c))
                = some ([ClientEvent.toolStart name s cid], toolWaitSt base name (buf ++ c) true) := by
              rw [fwdStep_delta cid name base buf c false hname, if_pos hguard, hjl]
              dsimp only
              rw [hsum]
              dsimp only
              rw [if_pos htr]
            refine ⟨[ClientEvent.toolStart name s cid], true, ?_, Or.inl ⟨rfl, rfl, htr⟩⟩
            simp only [List.map_cons, fwdRun]
            rw [hstep]
            dsimp only
            rw [hfull] at hstep ⊢
            rw [deltaChunks_pad cid name base _ true hname (by intro hh; exact absurd hh (by simp)) rest hrest]
            rfl
          · -- the summary stays falsy: nothing emitted, then pad
            have htr' : s.truthy = false := by
              cases hx : s.truthy with
              | true => exact absurd hx htr
              | false => rfl
            have hstep : fwdStep cid (toolWaitSt base name buf false)
                (.contentBlockDelta (.inputJsonDelta c))
                = some ([], toolWaitSt base name (buf ++ c) false) := by
              rw [fwdStep_delta cid name base buf c false hname, if_pos hguard, hjl]
              dsimp only
              rw [hsum]
              dsimp only
              rw [htr']
              rfl
            refine ⟨[], false, ?_, Or.inr ⟨rfl, rfl⟩⟩
            simp only [List.map_cons, fwdRun]
            rw [hstep]
            dsimp only
            rw [hfull] at hstep ⊢
            rw [deltaChunks_pad cid name base _ false hname
                  (fun _ => ⟨Json.obj f, s, jsonLoads_serialize _ hwf, hsum, htr'⟩) rest hrest]
            rfl
        · -- the buffer is a proper prefix: json.loads raises, nothing changes
          have hjl : jsonLoads (buf ++ c) = none :=
            jsonLoads_incomplete f (buf ++ c) (joinChunks rest) hwf hbuf2.symm hrest
          have hstep : fwdStep cid (toolWaitSt base name buf false)
              (.contentBlockDelta (.inputJsonDelta c))
              = some ([], toolWaitSt base name (buf ++ c) false) := by
            rw [fwdStep_delta cid name base buf c false hname, if_pos hguard, hjl]
          obtain ⟨evs, sent, hrun, hcase⟩ := ih (buf ++ c) base hbuf2
          refine ⟨evs, sent, ?_, hcase⟩
          simp only [List.map_cons, fwdRun]
          rw [hstep]
          dsimp only
          rw [hrun]
          rfl
      · -- short buffer: no parse attempt
        have hguard' : (!false && decide ((buf ++ c).length > 5)) = false := by
          cases hx : (!false && decide ((buf ++ c).length > 5)) with
          | true => exact absurd hx hguard
          | false => rfl
        have hstep : fwdStep cid (toolWaitSt base name buf false)
            (.contentBlockDelta (.inputJsonDelta c))
            = some ([], toolWaitSt base name (buf ++ c) false) := by
          rw [fwdStep_delta cid name base buf c false hname, hguard']
          rfl
        obtain ⟨evs, sent, hrun, hcase⟩ := ih (buf ++ c) base hbuf2
        refine ⟨evs, sent, ?_, hcase⟩
        simp only [List.map_cons, fwdRun]
        rw [hstep]
        dsimp only
        rw [hrun]
        rfl

theorem fwdStep_stop_full (cid name : String) (base : FwdState) (f : JsonFields) (s : Json)
    (sent : Bool)
    (hwf : Json.WFb (Json.obj f) = true)
    (hsum : summarizeToolInput name (Json.obj f) = some s) :
    ∃ evs st',
      fwdStep cid (toolWaitSt base name (Json.serialize (Json.obj f)) sent) .contentBlockStop
        = some (evs, st')
      ∧ toolStartsOf evs = (if sent then [] else [ClientEvent.toolStart name s cid]) := by
  have hserne : Json.serialize (Json.obj f) ≠ [] := by
    obtain ⟨tl, h⟩ := serialize_obj_head f
    rw [h]
    simp
  have hjl := jsonLoads_serialize (Json.obj f) hwf
  rw [fwdStep_stop_eq]
  have hstart : (if sent then some []
                 else match
                   (if Json.serialize (Json.obj f) = [] then some (Json.str "")
                    else match jsonLoads (Json.serialize (Json.obj f)) with
                         | some d => summarizeToolInput name d
                         | none => some (Json.str (String.mk ((Json.serialize (Json.obj f)).take 80)))) with
                 | none => none
                 | some summary => some [ClientEvent.toolStart name summary cid])
      = some (if sent then [] else [ClientEvent.toolStart name s cid]) := by
    cases sent with
    | true => rfl
    | false =>
        rw [if_neg hserne, hjl]
        dsimp only
        rw [hsum]
        rfl
  rw [hstart]
  dsimp only
  by_cases hsc : screenshotTools.contains name = true
  · rw [if_pos hsc]
    have hex : extractScreenshotPath (Json.serialize (Json.obj f))
        = some (match JsonFields.get f "filename" with
                | some (.str s0) => if s0 = "" then none else some s0
                | _ => none) := by
      unfold extractScreenshotPath
      rw [if_neg hserne, hjl]
    rw [hex]
    rcases hfn : (match JsonFields.get f "filename" with
                  | some (.str s0) => if s0 = "" then none else some s0
                  | _ => none) with _ | p
    · rw [hfn]
      refine ⟨_, _, rfl, ?_⟩
      cases sent <;> rfl
    · rw [hfn]
      refine ⟨_, _, rfl, ?_⟩
      cases sent <;> simp [toolStartsOf, isToolStart, List.filter_append]
  · rw [if_neg hsc]
    refine ⟨_, _, rfl, ?_⟩
    cases sent <;> rfl

theorem deltaChunks_noop (cid : String) (base : FwdState) (buf : List Char) (sent : Bool) :
    ∀ chunks : List (List Char), fwdRun cid (toolWaitSt base "" buf sent)
        (chunks.map (fun c => StreamEvent.contentBlockDelta (Delta.inputJsonDelta c)))
      = some ([], toolWaitSt base "" buf sent) := by
  intro chunks
  induction chunks with
  | nil => rfl
  | cons c rest ih =>
      simp only [List.map_cons, fwdRun]
      have hstep : fwdStep cid (toolWaitSt base "" buf sent)
          (.contentBlockDelta (.inputJsonDelta c)) = some ([], toolWaitSt base "" buf sent) := rfl
      rw [hstep]
      dsimp only
      rw [ih]
      rfl

theorem fwdRun_start_deltas_stop (cid : String) (st0 st1 stW stF : FwdState)
    (sE dE pE : List ClientEvent) (e0 : StreamEvent) (deltas : List StreamEvent)
    (h1 : fwdStep cid st0 e0 = some (sE, st1))
    (h2 : fwdRun cid st1 deltas = some (dE, stW))
    (h3 : fwdStep cid stW .contentBlockStop = some (pE, stF)) :
    fwdRun cid st0 (e0 :: deltas ++ [.contentBlockStop])
      = some (sE ++ (dE ++ (pE ++ [])), stF) := by
  simp only [fwdRun]
  rw [h1]
  dsimp only
  rw [show deltas.append [StreamEvent.contentBlockStop] = deltas ++ [StreamEvent.contentBlockStop] from rfl]
  rw [fwdRun_append cid deltas [.contentBlockStop] st1, h2]
  dsimp only
  simp only [fwdRun]
  rw [h3]

/-- C6 (amended): for a tool whose start is deferred at
`content_block_start` (the summary of the initial empty input object is
falsy, as for all path/command-style tools) and whose complete input object
summarizes successfully, every way of splitting the serialized object into
partial-input-json chunks followed by `content_block_stop` makes the
translator emit exactly one `tool_start` for the tool, whose `input_summary`
is the summary of the complete object.  The original claim, quantified over
every object and tool, is refuted by `toolInput_chunk_accumulation_cex`. -/
theorem toolInput_chunk_accumulation
    (cid tool : String) (f : JsonFields) (s v0 : Json)
    (chunks : List (List Char)) (st0 : FwdState)
    (hwf : Json.WFb (Json.obj f) = true)
    (hchunks : joinChunks chunks = Json.serialize (Json.obj f))
    (hdef : summarizeToolInput tool (Json.obj JsonFields.nil) = some v0)
    (hdef2 : v0.truthy = false)
    (hsum : summarizeToolInput tool (Json.obj f) = some s) :
    ∃ evs st',
      fwdRun cid st0
          (StreamEvent.contentBlockStart (ContentBlock.toolUse tool (Json.obj JsonFields.nil))
            :: chunks.map (fun c => StreamEvent.contentBlockDelta (Delta.inputJsonDelta c))
            ++ [StreamEvent.contentBlockStop])
        = some (evs, st')
      ∧ toolStartsOf evs = [ClientEvent.toolStart tool s cid] := by
  by_cases hname : tool = ""
  · subst hname
    have hs0 : s = Json.str "" := by
      rw [show summarizeToolInput "" (Json.obj f) = some (Json.str "") from rfl] at hsum
      exact (Option.some.inj hsum).symm
    subst hs0
    have h1 : fwdStep cid st0 (.contentBlockStart (.toolUse "" (Json.obj JsonFields.nil)))
        = some ([], toolWaitSt st0 "" [] false) := rfl
    have h2 := deltaChunks_noop cid st0 [] false chunks
    have h3 : fwdStep cid (toolWaitSt st0 "" [] false) .contentBlockStop
        = some ([ClientEvent.toolStart "" (Json.str "") cid, ClientEvent.toolDone cid],
                ⟨true, none, [], false, st0.imagePaths, st0.cwd⟩) := rfl
    refine ⟨_, _, fwdRun_start_deltas_stop cid st0 _ _ _ _ _ _ _ _ h1 h2 h3, ?_⟩
    rfl
  · have h1 : fwdStep cid st0 (.contentBlockStart (.toolUse tool (Json.obj JsonFields.nil)))
        = some ([], toolWaitSt st0 tool [] false) := by
      rw [fwdStep_start, hdef]
      dsimp only
      rw [hdef2]
      rfl
    obtain ⟨dE, sent, h2, hcase⟩ :=
      deltaChunks_run cid tool f s hname hwf hsum chunks [] st0
        (by rw [List.nil_append]; exact hchunks)
    obtain ⟨pE, stF, h3, hts⟩ := fwdStep_stop_full cid tool st0 f s sent hwf hsum
    refine ⟨_, stF, fwdRun_start_deltas_stop cid st0 _ _ stF [] dE pE _ _ h1 h2 h3, ?_⟩
    rcases hcase with ⟨hsent, hevs, htr⟩ | ⟨hsent, hevs⟩
    · subst hsent
      subst hevs
      have hts' : List.filter isToolStart pE = [] := by
        simpa [toolStartsOf] using hts
      simp only [toolStartsOf, List.nil_append, List.append_nil, List.filter_append, hts']
      rfl
    · subst hsent
      subst hevs
      have hts' : List.filter isToolStart pE = [ClientEvent.toolStart tool s cid] := by
        simpa [toolStartsOf] using hts
      simp only [toolStartsOf, List.nil_append, List.append_nil, List.filter_append, hts']

set_option maxRecDepth 10000 in
/-- C6 counterexample: the original claim fails on both measures.  A
`TodoWrite` turn whose initial (empty) input already summarizes to the truthy
`"0 items"` emits its single `tool_start` immediately with that provisional
summary, which differs from the direct summary `"fix bug"` of the complete
object; and a `Bash` turn whose complete input holds `"command": null`
crashes the summarizer (`None[:80]`), so the turn dies with no `tool_start`
at all. -/
theorem toolInput_chunk_accumulation_cex :
    (∃ evs st',
       fwdRun "c1" (FwdState.init none)
           [StreamEvent.contentBlockStart (ContentBlock.toolUse "TodoWrite" (Json.obj JsonFields.nil)),
            StreamEvent.contentBlockDelta (Delta.inputJsonDelta
              (Json.serialize (Json.obj (JsonFields.cons "todos"
                (Json.arr (JsonList.cons
                  (Json.obj (JsonFields.cons "content" (Json.str "fix bug")
                    (JsonFields.cons "status" (Json.str "in_progress") JsonFields.nil)))
                  JsonList.nil))
                JsonFields.nil)))),
            StreamEvent.contentBlockStop]
         = some (evs, st')
       ∧ toolStartsOf evs = [ClientEvent.toolStart "TodoWrite" (Json.str "0 items") "c1"])
    ∧ summarizeToolInput "TodoWrite"
        (Json.obj (JsonFields.cons "todos"
          (Json.arr (JsonList.cons
            (Json.obj (JsonFields.cons "content" (Json.str "fix bug")
              (JsonFields.cons "status" (Json.str "in_progress") JsonFields.nil)))
            JsonList.nil))
          JsonFields.nil))
        = some (Json.str "fix bug")
    ∧ Json.str "0 items" ≠ Json.str "fix bug"
    ∧ fwdRun "c1" (FwdState.init none)
        [StreamEvent.contentBlockStart (ContentBlock.toolUse "Bash" (Json.obj JsonFields.nil)),
         StreamEvent.contentBlockDelta (Delta.inputJsonDelta
           (Json.serialize (Json.obj (JsonFields.cons "command" Json.null JsonFields.nil)))),
         StreamEvent.contentBlockStop]
        = none :=
  ⟨⟨_, _, rfl, rfl⟩, rfl, by decide, rfl⟩

set_option maxRecDepth 10000 in
theorem toolInput_chunk_accumulation_witness :
    Json.WFb (Json.obj (JsonFields.cons "command" (Json.str "ls") JsonFields.nil)) = true
    ∧ joinChunks [['\x7b', '"', 'c', 'o', 'm'], ['m', 'a', 'n', 'd', '"', ':', ' ', '"', 'l', 's', '"', '\x7d']]
        = Json.serialize (Json.obj (JsonFields.cons "command" (Json.str "ls") JsonFields.nil))
    ∧ (∃ evs st',
        fwdRun "c1" (FwdState.init none)
            (StreamEvent.contentBlockStart (ContentBlock.toolUse "Bash" (Json.obj JsonFields.nil))
              :: ([['\x7b', '"', 'c', 'o', 'm'], ['m', 'a', 'n', 'd', '"', ':', ' ', '"', 'l', 's', '"', '\x7d']].map
                   (fun c => StreamEvent.contentBlockDelta (Delta.inputJsonDelta c)))
              ++ [StreamEvent.contentBlockStop])
          = some (evs, st')
        ∧ toolStartsOf evs = [ClientEvent.toolStart "Bash" (Json.str "ls") "c1"]) :=
  ⟨rfl, rfl,
   toolInput_chunk_accumulation "c1" "Bash"
     (JsonFields.cons "command" (Json.str "ls") JsonFields.nil)
     (Json.str "ls") (Json.str "")
     [['\x7b', '"', 'c', 'o', 'm'], ['m', 'a', 'n', 'd', '"', ':', ' ', '"', 'l', 's', '"', '\x7d']]
     (FwdState.init none) rfl rfl rfl rfl rfl⟩
